import Mathlib

/-!
# mpoll — fixed-capacity free-list memory pool (`m_pool.cpp`)

A shallow embedding of the three pool classes of `m_pool.cpp`
(`MutexMemoryPool`, `LockFreeMemoryPool`, `AdaptiveMemoryPool`) and proofs of
properties of their sequential behaviour.

Modelling conventions

* An address is a natural number; `0` is `nullptr`.
* `size_t` and `uintptr_t` are `Nat` with explicit `% 2 ^ w`.
* The block obtained from `new char[n]` is a `Memory`: its base address, its
  length in bytes, and the pointer-sized word stored at each address (the
  `Node::next` field of a `Node` placed there).  A load or store of a `Node`
  that does not lie inside the block is undefined behaviour in C++; the model
  stops there with `Fault.undefinedBehaviour`.
* `operator new[]` is taken to succeed; the address it returns and the
  indeterminate contents of the block are parameters (`NewBlock`).
* `std::mutex` / `std::lock_guard` have no effect in a sequential execution and
  are left out.  The compare-and-swap loops of the lock-free pool are kept,
  with a retry budget.  An iteration is the load of the head (step 1) followed
  by the rest of the body (steps 2 to 4: `allocateAttempt`,
  `deallocateAttempt`), which takes the loaded value as an argument, so that
  calls of other threads can take effect between the load and the
  compare-and-swap.
-/

namespace MPool

/-- The facts about the target platform the code depends on. -/
structure Platform where
  /-- width in bits of `size_t` and `uintptr_t` -/
  w : Nat
  /-- `sizeof(Node)`, the size of one `next` pointer -/
  ptrSize : Nat
  /-- what `std::atomic<TaggedPointer>::is_lock_free()` answers -/
  lockFree : Bool
  /-- a pointer occupies at least one byte -/
  ptr_pos : 0 < ptrSize

/-- Ways in which a call does not return normally. -/
inductive Fault where
  /-- `static_assert(sizeof(T) >= sizeof(Node), ...)` rejects the instantiation -/
  | staticAssert
  /-- `throw std::runtime_error("Atomic TaggedPointer is not lock-free on this platform.")` -/
  | runtimeError
  /-- a `Node` is read or written outside the `new char[]` block -/
  | undefinedBehaviour
  /-- the retry budget of a compare-and-swap loop is used up -/
  | outOfFuel
  deriving DecidableEq, Repr

/-- The result of a call: a value, or the way it went wrong. -/
abbrev Outcome := Except Fault

instance {ε α : Type} [DecidableEq ε] [DecidableEq α] : DecidableEq (Except ε α)
  | .ok a, .ok b => if h : a = b then isTrue (by rw [h]) else isFalse (by intro e; cases e; exact h rfl)
  | .error a, .error b =>
    if h : a = b then isTrue (by rw [h]) else isFalse (by intro e; cases e; exact h rfl)
  | .ok _, .error _ => isFalse (by intro e; cases e)
  | .error _, .ok _ => isFalse (by intro e; cases e)

/-- What `operator new[]` hands out: a non-null address and whatever the
uninitialised storage happens to contain. -/
structure NewBlock where
  /-- the address returned by `new char[n]` -/
  base : Nat
  /-- the indeterminate initial contents, read as pointer-sized words -/
  junk : Nat → Nat
  /-- `new` never returns `nullptr` -/
  base_pos : 0 < base

/-- The storage block `raw_memory_` points to. -/
structure Memory where
  /-- first address of the block -/
  base : Nat
  /-- length of the block in bytes -/
  size : Nat
  /-- the pointer-sized word stored at an address (`Node::next` of a node there) -/
  next : Nat → Nat

/-- The result of `new char[n]`. -/
def NewBlock.alloc (h : NewBlock) (n : Nat) : Memory :=
  { base := h.base, size := n, next := h.junk }

/-- A `Node` at address `a` lies inside the block. -/
def Memory.inBounds (P : Platform) (m : Memory) (a : Nat) : Prop :=
  m.base ≤ a ∧ a + P.ptrSize ≤ m.base + m.size

instance (P : Platform) (m : Memory) (a : Nat) : Decidable (m.inBounds P a) := by
  unfold Memory.inBounds; infer_instance

/-- Read `node->next` for the node at `a`. -/
def Memory.load (P : Platform) (m : Memory) (a : Nat) : Outcome Nat :=
  if m.inBounds P a then .ok (m.next a) else .error .undefinedBehaviour

/-- Write `node->next = v` for the node at `a`. -/
def Memory.store (P : Platform) (m : Memory) (a v : Nat) : Outcome Memory :=
  if m.inBounds P a then .ok { m with next := Function.update m.next a v }
  else .error .undefinedBehaviour

/-- The linking loop shared by both constructors
(`for (size_t i = 0; i < count - 1; i++) { ... }`), with `n` iterations left:
`next = current_char + sizeof(T); current->next = next; current = next;
current_char += sizeof(T);`.  Returns the final `current` and the memory. -/
def linkLoop (P : Platform) (sizeofT : Nat) : Nat → Nat → Memory → Outcome (Nat × Memory)
  | 0, current, m => .ok (current, m)
  | n + 1, current, m =>
    match m.store P current (current + sizeofT) with
    | .ok m1 => linkLoop P sizeofT n (current + sizeofT) m1
    | .error f => .error f

/-- The value of `sizeof(T) * count` in `size_t`. -/
def arenaBytes (P : Platform) (sizeofT count : Nat) : Nat :=
  (sizeofT * count) % 2 ^ P.w

/-- The value of `count - 1` in `size_t` (it wraps around for `count = 0`). -/
def loopBound (P : Platform) (count : Nat) : Nat :=
  (count + 2 ^ P.w - 1) % 2 ^ P.w

/-! ## MutexMemoryPool -/

/-- State of a `MutexMemoryPool<T>` (the mutex itself is not modelled). -/
structure MutexMemoryPool where
  raw_memory_ : Nat
  head_ : Nat
  capacity_ : Nat
  /-- contents of the block `raw_memory_` points to -/
  heap : Memory

/-- Constructor `MutexMemoryPool(size_t count)`. -/
def MutexMemoryPool.construct (P : Platform) (sizeofT : Nat) (h : NewBlock) (count : Nat) :
    Outcome MutexMemoryPool :=
  if sizeofT < P.ptrSize then .error .staticAssert
  else
    let raw := h.alloc (arenaBytes P sizeofT count)
    match linkLoop P sizeofT (loopBound P count) raw.base raw with
    | .error f => .error f
    | .ok (current, m) =>
      match m.store P current 0 with
      | .error f => .error f
      | .ok m2 =>
        .ok { raw_memory_ := raw.base, head_ := raw.base, capacity_ := count, heap := m2 }

/-- Method `MutexMemoryPool::allocate`; the result `0` is `nullptr`. -/
def MutexMemoryPool.allocate (P : Platform) (p : MutexMemoryPool) :
    Outcome (Nat × MutexMemoryPool) :=
  if p.head_ = 0 then .ok (0, p)
  else
    let result := p.head_
    match p.heap.load P p.head_ with
    | .error f => .error f
    | .ok nxt => .ok (result, { p with head_ := nxt })

/-- Method `MutexMemoryPool::deallocate`. -/
def MutexMemoryPool.deallocate (P : Platform) (p : MutexMemoryPool) (ptr : Nat) :
    Outcome MutexMemoryPool :=
  match p.heap.store P ptr p.head_ with
  | .error f => .error f
  | .ok m => .ok { p with heap := m, head_ := ptr }

/-! ## LockFreeMemoryPool -/

/-- The pair `struct TaggedPointer { Node* ptr; uintptr_t tag; }`. -/
structure TaggedPointer where
  ptr : Nat
  tag : Nat
  deriving DecidableEq, Repr

/-- State of a `LockFreeMemoryPool<T>`. -/
structure LockFreeMemoryPool where
  raw_memory_ : Nat
  head_ : TaggedPointer
  capacity_ : Nat
  /-- contents of the block `raw_memory_` points to -/
  heap : Memory

/-- Static member `is_lock_free()`. -/
def LockFreeMemoryPool.is_lock_free (P : Platform) : Bool := P.lockFree

/-- The call `head_.compare_exchange_weak(expected, desired)` on a head holding
`cur`: whether it succeeded, and the value of the head afterwards.  (Spurious
failure of the weak form is not modelled.) -/
def compare_exchange_weak (cur expected desired : TaggedPointer) : Bool × TaggedPointer :=
  if cur = expected then (true, desired) else (false, cur)

/-- Constructor `LockFreeMemoryPool(size_t count)`. -/
def LockFreeMemoryPool.construct (P : Platform) (sizeofT : Nat) (h : NewBlock) (count : Nat) :
    Outcome LockFreeMemoryPool :=
  if sizeofT < P.ptrSize then .error .staticAssert
  else if !LockFreeMemoryPool.is_lock_free P then .error .runtimeError
  else
    let raw := h.alloc (arenaBytes P sizeofT count)
    let head := raw.base
    match linkLoop P sizeofT (loopBound P count) raw.base raw with
    | .error f => .error f
    | .ok (current, m) =>
      match m.store P current 0 with
      | .error f => .error f
      | .ok m2 =>
        .ok { raw_memory_ := raw.base, head_ := ⟨head, 0⟩, capacity_ := count, heap := m2 }

/-- Steps 2 to 4 of one iteration of the loop of `LockFreeMemoryPool::allocate`,
run on the pool in state `p` with the value `old_head` that step 1
(`old_head = head_.load()`) has read: the null test, the new head
`(old_head.ptr->next, old_head.tag + 1)`, and
`head_.compare_exchange_weak(old_head, new_head)`.  The result `some r` means
that the call returns `r`; `none` means that the compare-and-swap failed and
the loop goes round again. -/
def LockFreeMemoryPool.allocateAttempt (P : Platform) (old_head : TaggedPointer)
    (p : LockFreeMemoryPool) : Outcome (Option (Nat × LockFreeMemoryPool)) :=
  if old_head.ptr = 0 then .ok (some (0, p))
  else
    match p.heap.load P old_head.ptr with
    | .error f => .error f
    | .ok nxt =>
      let new_head : TaggedPointer := ⟨nxt, (old_head.tag + 1) % 2 ^ P.w⟩
      match compare_exchange_weak p.head_ old_head new_head with
      | (true, hd) => .ok (some (old_head.ptr, { p with head_ := hd }))
      | (false, _) => .ok none

/-- The `while (true)` loop of `LockFreeMemoryPool::allocate`, with `fuel`
iterations allowed: each iteration loads the head and runs steps 2 to 4. -/
def LockFreeMemoryPool.allocateLoop (P : Platform) :
    Nat → LockFreeMemoryPool → Outcome (Nat × LockFreeMemoryPool)
  | 0, _ => .error .outOfFuel
  | fuel + 1, p =>
    let old_head := p.head_
    match LockFreeMemoryPool.allocateAttempt P old_head p with
    | .error f => .error f
    | .ok (some r) => .ok r
    | .ok none => LockFreeMemoryPool.allocateLoop P fuel p

/-- Steps 2 to 4 of one iteration of the loop of
`LockFreeMemoryPool::deallocate`, run on the pool in state `p` with the value
`old_head` that step 1 has read: `new_node->next = old_head.ptr`, the new head
`(new_node, old_head.tag + 1)`, and
`head_.compare_exchange_weak(old_head, new_head)`.  The flag tells whether the
compare-and-swap succeeded (the call returns) or not (the loop goes round
again); the store to `new_node->next` is done in both cases. -/
def LockFreeMemoryPool.deallocateAttempt (P : Platform) (new_node : Nat)
    (old_head : TaggedPointer) (p : LockFreeMemoryPool) :
    Outcome (Bool × LockFreeMemoryPool) :=
  match p.heap.store P new_node old_head.ptr with
  | .error f => .error f
  | .ok m =>
    let new_head : TaggedPointer := ⟨new_node, (old_head.tag + 1) % 2 ^ P.w⟩
    match compare_exchange_weak p.head_ old_head new_head with
    | (true, hd) => .ok (true, { p with heap := m, head_ := hd })
    | (false, _) => .ok (false, { p with heap := m })

/-- The `while (true)` loop of `LockFreeMemoryPool::deallocate`, with `fuel`
iterations allowed: each iteration loads the head and runs steps 2 to 4. -/
def LockFreeMemoryPool.deallocateLoop (P : Platform) (new_node : Nat) :
    Nat → LockFreeMemoryPool → Outcome LockFreeMemoryPool
  | 0, _ => .error .outOfFuel
  | fuel + 1, p =>
    let old_head := p.head_
    match LockFreeMemoryPool.deallocateAttempt P new_node old_head p with
    | .error f => .error f
    | .ok (true, p1) => .ok p1
    | .ok (false, p1) => LockFreeMemoryPool.deallocateLoop P new_node fuel p1

/-- Method `LockFreeMemoryPool::allocate`, run with a retry budget of
`fuel + 1` iterations. -/
def LockFreeMemoryPool.allocate (P : Platform) (fuel : Nat) (p : LockFreeMemoryPool) :
    Outcome (Nat × LockFreeMemoryPool) :=
  LockFreeMemoryPool.allocateLoop P (fuel + 1) p

/-- Method `LockFreeMemoryPool::deallocate`, run with a retry budget of
`fuel + 1` iterations. -/
def LockFreeMemoryPool.deallocate (P : Platform) (fuel : Nat) (p : LockFreeMemoryPool)
    (ptr : Nat) : Outcome LockFreeMemoryPool :=
  LockFreeMemoryPool.deallocateLoop P ptr (fuel + 1) p

/-- The call `allocate()` of a thread that is preempted in its first iteration
right after step 1: `old_head` is the head it has loaded, `p` the state of the
pool when it goes on with steps 2 to 4.  When its compare-and-swap fails the
loop goes round again and loads the head of the pool anew; `fuel` further
iterations are allowed. -/
def LockFreeMemoryPool.allocateResume (P : Platform) (fuel : Nat) (old_head : TaggedPointer)
    (p : LockFreeMemoryPool) : Outcome (Nat × LockFreeMemoryPool) :=
  match LockFreeMemoryPool.allocateAttempt P old_head p with
  | .error f => .error f
  | .ok (some r) => .ok r
  | .ok none => LockFreeMemoryPool.allocateLoop P fuel p

/-- The call `deallocate(new_node)` of a thread that is preempted in its first
iteration right after step 1: `old_head` is the head it has loaded, `p` the
state of the pool when it goes on with steps 2 to 4.  When its
compare-and-swap fails the loop goes round again and loads the head of the
pool anew; `fuel` further iterations are allowed. -/
def LockFreeMemoryPool.deallocateResume (P : Platform) (fuel : Nat) (new_node : Nat)
    (old_head : TaggedPointer) (p : LockFreeMemoryPool) : Outcome LockFreeMemoryPool :=
  match LockFreeMemoryPool.deallocateAttempt P new_node old_head p with
  | .error f => .error f
  | .ok (true, p1) => .ok p1
  | .ok (false, p1) => LockFreeMemoryPool.deallocateLoop P new_node fuel p1

/-! ## MemoryPoolBase and AdaptiveMemoryPool -/

/-- An object behind a `MemoryPoolBase<T>*`: one of the two derived classes. -/
inductive MemoryPoolBase where
  | lockFree (p : LockFreeMemoryPool)
  | mutex (p : MutexMemoryPool)

/-- The two classes deriving from `MemoryPoolBase<T>`. -/
inductive Backend where
  | lockFree
  | mutex
  deriving DecidableEq, Repr

/-- The dynamic type of the object. -/
def MemoryPoolBase.backend : MemoryPoolBase → Backend
  | .lockFree _ => .lockFree
  | .mutex _ => .mutex

/-- Virtual call `pool->allocate()`. -/
def MemoryPoolBase.allocate (P : Platform) (fuel : Nat) :
    MemoryPoolBase → Outcome (Nat × MemoryPoolBase)
  | .lockFree p =>
    match p.allocate P fuel with
    | .ok (a, p1) => .ok (a, .lockFree p1)
    | .error f => .error f
  | .mutex p =>
    match p.allocate P with
    | .ok (a, p1) => .ok (a, .mutex p1)
    | .error f => .error f

/-- Virtual call `pool->deallocate(ptr)`. -/
def MemoryPoolBase.deallocate (P : Platform) (fuel : Nat) :
    MemoryPoolBase → Nat → Outcome MemoryPoolBase
  | .lockFree p, ptr =>
    match p.deallocate P fuel ptr with
    | .ok p1 => .ok (.lockFree p1)
    | .error f => .error f
  | .mutex p, ptr =>
    match p.deallocate P ptr with
    | .ok p1 => .ok (.mutex p1)
    | .error f => .error f

/-- The expression `std::make_unique<Pool<T>>(count)` converted to
`std::unique_ptr<MemoryPoolBase<T>>`, for either derived class. -/
def make_unique (k : Backend) (P : Platform) (sizeofT : Nat) (h : NewBlock) (count : Nat) :
    Outcome MemoryPoolBase :=
  match k with
  | .lockFree =>
    match LockFreeMemoryPool.construct P sizeofT h count with
    | .ok p => .ok (.lockFree p)
    | .error f => .error f
  | .mutex =>
    match MutexMemoryPool.construct P sizeofT h count with
    | .ok p => .ok (.mutex p)
    | .error f => .error f

/-- State of an `AdaptiveMemoryPool<T>`. -/
structure AdaptiveMemoryPool where
  pool_ : MemoryPoolBase

/-- Constructor `AdaptiveMemoryPool(size_t count)` (console output left out). -/
def AdaptiveMemoryPool.construct (P : Platform) (sizeofT : Nat) (h : NewBlock) (count : Nat) :
    Outcome AdaptiveMemoryPool :=
  if LockFreeMemoryPool.is_lock_free P then
    match make_unique .lockFree P sizeofT h count with
    | .ok b => .ok ⟨b⟩
    | .error f => .error f
  else
    match make_unique .mutex P sizeofT h count with
    | .ok b => .ok ⟨b⟩
    | .error f => .error f

/-- Method `AdaptiveMemoryPool::allocate`. -/
def AdaptiveMemoryPool.allocate (P : Platform) (fuel : Nat) (a : AdaptiveMemoryPool) :
    Outcome (Nat × AdaptiveMemoryPool) :=
  match a.pool_.allocate P fuel with
  | .ok (r, b) => .ok (r, ⟨b⟩)
  | .error f => .error f

/-- Method `AdaptiveMemoryPool::deallocate`. -/
def AdaptiveMemoryPool.deallocate (P : Platform) (fuel : Nat) (a : AdaptiveMemoryPool)
    (ptr : Nat) : Outcome AdaptiveMemoryPool :=
  match a.pool_.deallocate P fuel ptr with
  | .ok b => .ok ⟨b⟩
  | .error f => .error f

/-! ## Clients: sequences of calls -/

/-- One call made by a client of the pool. -/
inductive Op where
  | allocate
  | deallocate (ptr : Nat)
  deriving DecidableEq, Repr

/-- A pool together with the bookkeeping of its client: the addresses it
currently holds and everything `allocate` has returned so far (`0` for
`nullptr`), oldest first. -/
structure Client where
  pool : MemoryPoolBase
  live : List Nat
  returned : List Nat

/-- Why a run of calls stopped early. -/
inductive Stop where
  /-- a `deallocate` whose argument the client does not hold -/
  | violation
  /-- the pool itself did not return normally -/
  | fault (f : Fault)
  deriving DecidableEq, Repr

/-- A client that has just received its pool. -/
def Client.fresh (b : MemoryPoolBase) : Client :=
  { pool := b, live := [], returned := [] }

/-- Perform one call.  A `deallocate` is only performed on an address the
client holds (the precondition of `deallocate`). -/
def Client.step (P : Platform) (fuel : Nat) (c : Client) : Op → Except Stop Client
  | .allocate =>
    match c.pool.allocate P fuel with
    | .error f => .error (.fault f)
    | .ok (a, b) =>
      .ok { pool := b, live := if a = 0 then c.live else a :: c.live,
            returned := c.returned ++ [a] }
  | .deallocate ptr =>
    if ptr ∈ c.live then
      match c.pool.deallocate P fuel ptr with
      | .error f => .error (.fault f)
      | .ok b => .ok { pool := b, live := c.live.erase ptr, returned := c.returned }
    else .error .violation

/-- Perform a sequence of calls, one at a time. -/
def Client.run (P : Platform) (fuel : Nat) : Client → List Op → Except Stop Client
  | c, [] => .ok c
  | c, op :: ops =>
    match c.step P fuel op with
    | .ok c1 => Client.run P fuel c1 ops
    | .error e => .error e

/-- The addresses of the slots of an arena: `base`, `base + sizeofT`, ... -/
def slots (base sizeofT : Nat) : Nat → List Nat
  | 0 => []
  | n + 1 => base :: slots (base + sizeofT) sizeofT n

/-- The address held in the head of the free list. -/
def MemoryPoolBase.headPtr : MemoryPoolBase → Nat
  | .lockFree p => p.head_.ptr
  | .mutex p => p.head_

/-- The contents of the arena of a pool. -/
def MemoryPoolBase.heap : MemoryPoolBase → Memory
  | .lockFree p => p.heap
  | .mutex p => p.heap

/-- `Chain next h L`: following the `next` links from `h` visits exactly the
non-null addresses of `L`, in this order, and then reaches `nullptr`. -/
def Chain (next : Nat → Nat) : Nat → List Nat → Prop
  | h, [] => h = 0
  | h, a :: L => h = a ∧ a ≠ 0 ∧ Chain next (next a) L

/-- `Desc P A b L`: the free list of pool `b` is `L`, and a node at each
address of `A` lies inside the arena of `b`. -/
def Desc (P : Platform) (A : List Nat) (b : MemoryPoolBase) (L : List Nat) : Prop :=
  Chain b.heap.next b.headPtr L ∧ ∀ a ∈ A, b.heap.inBounds P a

/-- `Holds P A c L`: the free list of the pool of client `c` is `L`, and `L`
together with the addresses the client holds is a rearrangement of `A`. -/
def Holds (P : Platform) (A : List Nat) (c : Client) (L : List Nat) : Prop :=
  Desc P A c.pool L ∧ (L ++ c.live).Perm A

/-- `Inv P A c`: the free list of the pool of client `c` and the addresses the
client holds together make up the slot addresses `A`, each exactly once, and
every address returned so far is `nullptr` or a slot address. -/
def Inv (P : Platform) (A : List Nat) (c : Client) : Prop :=
  ∃ L, Holds P A c L ∧ ∀ a ∈ c.returned, a = 0 ∨ a ∈ A

/-- Perform a sequence of calls on the facade, with no bookkeeping: the values
returned by the `allocate` calls, oldest first, and the facade afterwards. -/
def AdaptiveMemoryPool.calls (P : Platform) (fuel : Nat) :
    AdaptiveMemoryPool → List Op → Outcome (List Nat × AdaptiveMemoryPool)
  | a, [] => .ok ([], a)
  | a, .allocate :: ops =>
    match a.allocate P fuel with
    | .error f => .error f
    | .ok (r, a1) =>
      match AdaptiveMemoryPool.calls P fuel a1 ops with
      | .error f => .error f
      | .ok (rs, a2) => .ok (r :: rs, a2)
  | a, .deallocate ptr :: ops =>
    match a.deallocate P fuel ptr with
    | .error f => .error f
    | .ok a1 => AdaptiveMemoryPool.calls P fuel a1 ops

/-- The member `raw_memory_` of a pool. -/
def MemoryPoolBase.raw_memory_ : MemoryPoolBase → Nat
  | .lockFree p => p.raw_memory_
  | .mutex p => p.raw_memory_

/-- `Sim P A cl cm`: the two clients hold the same addresses, have been
returned the same values, and their pools have the same free list. -/
def Sim (P : Platform) (A : List Nat) (cl cm : Client) : Prop :=
  ∃ L, Holds P A cl L ∧ Holds P A cm L ∧ cl.live = cm.live ∧ cl.returned = cm.returned

/-- The tag of the head of a lock-free pool (the mutex pool has no tag; `0`). -/
def MemoryPoolBase.tag : MemoryPoolBase → Nat
  | .lockFree p => p.head_.tag
  | .mutex _ => 0

/-- Whether the call `op` made by client `c` succeeds: an `allocate` that
returns a non-null address, or a `deallocate` that is performed. -/
def Client.succeeds (P : Platform) (fuel : Nat) (c : Client) : Op → Bool
  | .allocate =>
    match c.pool.allocate P fuel with
    | .ok (a, _) => a != 0
    | .error _ => false
  | .deallocate ptr =>
    match c.step P fuel (.deallocate ptr) with
    | .ok _ => true
    | .error _ => false

/-- The number of calls of `ops` that succeed when client `c` performs them
one at a time. -/
def Client.successes (P : Platform) (fuel : Nat) : Client → List Op → Nat
  | _, [] => 0
  | c, op :: ops =>
    match c.step P fuel op with
    | .ok c1 => (if c.succeeds P fuel op then 1 else 0) + Client.successes P fuel c1 ops
    | .error _ => 0

/-! ## Concrete inputs used in examples -/

/-- A 64-bit platform on which the atomic `TaggedPointer` is lock-free. -/
def x86_64 : Platform := { w := 64, ptrSize := 8, lockFree := true, ptr_pos := by decide }

/-- A 32-bit platform on which the atomic `TaggedPointer` is not lock-free. -/
def i386 : Platform := { w := 32, ptrSize := 4, lockFree := false, ptr_pos := by decide }

/-- A block at address 4096 whose uninitialised words read as `a + 7`. -/
def block4096 : NewBlock := { base := 4096, junk := fun a => a + 7, base_pos := by decide }

/-- The value of `sizeof(MyObject)`: an `int` and 60 bytes of padding. -/
def sizeofMyObject : Nat := 64

/-! ## Basic facts -/

theorem mem_slots (S : Nat) : ∀ (n base a : Nat),
    a ∈ slots base S n ↔ ∃ i, i < n ∧ a = base + i * S
  | 0, base, a => by simp [slots]
  | n + 1, base, a => by
    rw [slots, List.mem_cons, mem_slots S n]
    constructor
    · rintro (h | ⟨i, hi, h⟩)
      · exact ⟨0, by omega, by omega⟩
      · exact ⟨i + 1, by omega, by rw [h, Nat.add_mul]; omega⟩
    · rintro ⟨i, hi, h⟩
      cases i with
      | zero => left; omega
      | succ j => right; exact ⟨j, by omega, by rw [h, Nat.add_mul]; omega⟩

theorem slots_length (S : Nat) : ∀ (n base : Nat), (slots base S n).length = n
  | 0, _ => rfl
  | n + 1, base => by simp [slots, slots_length S n]

theorem slots_nodup (S : Nat) (hS : 0 < S) : ∀ (n base : Nat), (slots base S n).Nodup
  | 0, _ => by simp [slots]
  | n + 1, base => by
    rw [slots, List.nodup_cons]
    refine ⟨?_, slots_nodup S hS n _⟩
    rw [mem_slots]
    rintro ⟨i, _, h⟩
    have : 0 ≤ i * S := Nat.zero_le _
    omega

theorem slots_ne_zero (S : Nat) (n base a : Nat) (hb : 0 < base) (h : a ∈ slots base S n) :
    a ≠ 0 := by
  rw [mem_slots] at h
  obtain ⟨i, _, h⟩ := h
  omega

theorem chain_update (next : Nat → Nat) (x v : Nat) :
    ∀ (L : List Nat) (h : Nat), x ∉ L → Chain next h L →
      Chain (Function.update next x v) h L
  | [], _, _, hc => hc
  | a :: L, h, hx, hc => by
    obtain ⟨h1, h2, h3⟩ := hc
    have hne : a ≠ x := fun e => hx (by simp [e])
    refine ⟨h1, h2, ?_⟩
    rw [Function.update_noteq hne]
    exact chain_update next x v L _ (fun hm => hx (List.mem_cons_of_mem _ hm)) h3

theorem chain_ne_zero (next : Nat → Nat) :
    ∀ (L : List Nat) (h : Nat), Chain next h L → ∀ a ∈ L, a ≠ 0
  | [], _, _, _, ha => by simp at ha
  | x :: L, h, hc, a, ha => by
    obtain ⟨_, h2, h3⟩ := hc
    rcases List.mem_cons.mp ha with e | hm
    · rw [e]; exact h2
    · exact chain_ne_zero next L _ h3 a hm

theorem chain_unique (next : Nat → Nat) :
    ∀ (L M : List Nat) (h : Nat), Chain next h L → Chain next h M → L = M
  | [], [], _, _, _ => rfl
  | [], b :: M, h, hl, hm => by
    obtain ⟨e, hb, _⟩ := hm
    exact absurd (e.symm.trans hl) hb
  | a :: L, [], h, hl, hm => by
    obtain ⟨e, ha, _⟩ := hl
    exact absurd (e.symm.trans hm) ha
  | a :: L, b :: M, h, hl, hm => by
    obtain ⟨e1, _, c1⟩ := hl
    obtain ⟨e2, _, c2⟩ := hm
    have hab : a = b := e1.symm.trans e2
    subst hab
    rw [chain_unique next L M _ c1 c2]

/-! ## One call on a pool -/

theorem cas_same (h d : TaggedPointer) : compare_exchange_weak h h d = (true, d) := by
  simp [compare_exchange_weak]

theorem allocateLoop_succ (P : Platform) (fuel : Nat) (p : LockFreeMemoryPool) :
    LockFreeMemoryPool.allocateLoop P (fuel + 1) p =
      if p.head_.ptr = 0 then .ok (0, p)
      else
        match p.heap.load P p.head_.ptr with
        | .error f => .error f
        | .ok nxt =>
          .ok (p.head_.ptr, { p with head_ := ⟨nxt, (p.head_.tag + 1) % 2 ^ P.w⟩ }) := by
  simp only [LockFreeMemoryPool.allocateLoop, LockFreeMemoryPool.allocateAttempt]
  by_cases h0 : p.head_.ptr = 0
  · simp [h0]
  · simp only [h0, if_false]
    cases p.heap.load P p.head_.ptr with
    | error f => rfl
    | ok nxt => simp [cas_same]

theorem deallocateLoop_succ (P : Platform) (fuel : Nat) (a : Nat) (p : LockFreeMemoryPool) :
    LockFreeMemoryPool.deallocateLoop P a (fuel + 1) p =
      match p.heap.store P a p.head_.ptr with
      | .error f => .error f
      | .ok m => .ok { p with heap := m, head_ := ⟨a, (p.head_.tag + 1) % 2 ^ P.w⟩ } := by
  simp only [LockFreeMemoryPool.deallocateLoop, LockFreeMemoryPool.deallocateAttempt]
  cases p.heap.store P a p.head_.ptr with
  | error f => rfl
  | ok m => simp [cas_same]

theorem allocate_empty (P : Platform) (fuel : Nat) (b : MemoryPoolBase)
    (h : b.headPtr = 0) : b.allocate P fuel = .ok (0, b) := by
  cases b with
  | lockFree p =>
    simp only [MemoryPoolBase.headPtr] at h
    simp [MemoryPoolBase.allocate, LockFreeMemoryPool.allocate, allocateLoop_succ, h]
  | mutex p =>
    simp only [MemoryPoolBase.headPtr] at h
    simp [MemoryPoolBase.allocate, MutexMemoryPool.allocate, h]

theorem allocate_head (P : Platform) (fuel : Nat) (b : MemoryPoolBase)
    (h : b.headPtr ≠ 0) (hin : b.heap.inBounds P b.headPtr) :
    ∃ b1, b.allocate P fuel = .ok (b.headPtr, b1) ∧ b1.heap = b.heap ∧
      b1.headPtr = b.heap.next b.headPtr ∧ b1.backend = b.backend := by
  cases b with
  | lockFree p =>
    simp only [MemoryPoolBase.headPtr, MemoryPoolBase.heap] at h hin
    simp [MemoryPoolBase.allocate, LockFreeMemoryPool.allocate,
      allocateLoop_succ, h, Memory.load, hin,
      MemoryPoolBase.headPtr, MemoryPoolBase.heap, MemoryPoolBase.backend]
  | mutex p =>
    simp only [MemoryPoolBase.headPtr, MemoryPoolBase.heap] at h hin
    simp [MemoryPoolBase.allocate, MutexMemoryPool.allocate, h, Memory.load, hin,
      MemoryPoolBase.headPtr, MemoryPoolBase.heap, MemoryPoolBase.backend]

theorem deallocate_push (P : Platform) (fuel : Nat) (b : MemoryPoolBase) (a : Nat)
    (hin : b.heap.inBounds P a) :
    ∃ b1, b.deallocate P fuel a = .ok b1 ∧ b1.headPtr = a ∧
      b1.heap.next = Function.update b.heap.next a b.headPtr ∧
      b1.heap.base = b.heap.base ∧ b1.heap.size = b.heap.size ∧
      b1.backend = b.backend := by
  cases b with
  | lockFree p =>
    simp only [MemoryPoolBase.heap] at hin
    simp [MemoryPoolBase.deallocate, LockFreeMemoryPool.deallocate,
      deallocateLoop_succ, Memory.store, hin,
      MemoryPoolBase.headPtr, MemoryPoolBase.heap, MemoryPoolBase.backend]
  | mutex p =>
    simp only [MemoryPoolBase.heap] at hin
    simp [MemoryPoolBase.deallocate, MutexMemoryPool.deallocate, Memory.store, hin,
      MemoryPoolBase.headPtr, MemoryPoolBase.heap, MemoryPoolBase.backend]

theorem desc_allocate_cons (P : Platform) (fuel : Nat) (A : List Nat) (b : MemoryPoolBase)
    (a : Nat) (L : List Nat) (hd : Desc P A b (a :: L)) (ha : a ∈ A) :
    ∃ b1, b.allocate P fuel = .ok (a, b1) ∧ Desc P A b1 L ∧ a ≠ 0 := by
  obtain ⟨⟨h1, h2, h3⟩, hB⟩ := hd
  have hne : b.headPtr ≠ 0 := by rw [h1]; exact h2
  obtain ⟨b1, e, eh, ep, _⟩ := allocate_head P fuel b hne (by rw [h1]; exact hB a ha)
  refine ⟨b1, by rw [e, h1], ⟨?_, ?_⟩, h2⟩
  · rw [eh, ep, h1]; exact h3
  · rw [eh]; exact hB

theorem desc_allocate_nil (P : Platform) (fuel : Nat) (A : List Nat) (b : MemoryPoolBase)
    (hd : Desc P A b []) : b.allocate P fuel = .ok (0, b) :=
  allocate_empty P fuel b hd.1

theorem desc_deallocate (P : Platform) (fuel : Nat) (A : List Nat) (b : MemoryPoolBase)
    (a : Nat) (L : List Nat) (hd : Desc P A b L) (ha : a ∈ A) (hz : a ≠ 0) (hL : a ∉ L) :
    ∃ b1, b.deallocate P fuel a = .ok b1 ∧ Desc P A b1 (a :: L) := by
  obtain ⟨hc, hB⟩ := hd
  obtain ⟨b1, e, eh, en, eb, es, _⟩ := deallocate_push P fuel b a (hB a ha)
  refine ⟨b1, e, ⟨eh, hz, ?_⟩, ?_⟩
  · rw [en, Function.update_same]
    exact chain_update _ _ _ L _ hL hc
  · intro x hx
    have := hB x hx
    simp only [Memory.inBounds] at this ⊢
    rw [eb, es]; exact this

/-! ## One call of a client -/

theorem step_allocate_cons (P : Platform) (fuel : Nat) (A : List Nat) (c : Client)
    (a : Nat) (L : List Nat) (h : Holds P A c (a :: L)) :
    ∃ c1, c.step P fuel .allocate = .ok c1 ∧ Holds P A c1 L ∧
      c1.live = a :: c.live ∧ c1.returned = c.returned ++ [a] ∧ a ≠ 0 ∧ a ∈ A := by
  obtain ⟨hd, hp⟩ := h
  have ha : a ∈ A := hp.subset (by simp)
  obtain ⟨b1, e, hd1, hz⟩ := desc_allocate_cons P fuel A c.pool a L hd ha
  refine ⟨⟨b1, a :: c.live, c.returned ++ [a]⟩, ?_, ⟨hd1, ?_⟩, rfl, rfl, hz, ha⟩
  · simp [Client.step, e, hz]
  · exact (List.perm_middle).trans hp

theorem step_allocate_nil (P : Platform) (fuel : Nat) (A : List Nat) (c : Client)
    (h : Holds P A c []) :
    c.step P fuel .allocate = .ok ⟨c.pool, c.live, c.returned ++ [0]⟩ := by
  simp [Client.step, desc_allocate_nil P fuel A c.pool h.1]

theorem step_deallocate (P : Platform) (fuel : Nat) (A : List Nat) (hA : A.Nodup)
    (hz : ∀ a ∈ A, a ≠ 0) (c : Client) (a : Nat) (L : List Nat) (h : Holds P A c L)
    (ha : a ∈ c.live) :
    ∃ c1, c.step P fuel (.deallocate a) = .ok c1 ∧ Holds P A c1 (a :: L) ∧
      c1.live = c.live.erase a ∧ c1.returned = c.returned := by
  obtain ⟨hd, hp⟩ := h
  have hnd : (L ++ c.live).Nodup := hp.nodup_iff.mpr hA
  have haA : a ∈ A := hp.subset (List.mem_append_right _ ha)
  have hL : a ∉ L := fun hm => (List.nodup_append.mp hnd).2.2 hm ha
  obtain ⟨b1, e, hd1⟩ := desc_deallocate P fuel A c.pool a L hd haA (hz a haA) hL
  refine ⟨⟨b1, c.live.erase a, c.returned⟩, ?_, ⟨hd1, ?_⟩, rfl, rfl⟩
  · simp [Client.step, ha, e]
  · have h1 : (a :: (L ++ c.live.erase a)).Perm (L ++ a :: c.live.erase a) :=
      (List.perm_middle).symm
    have h2 : (L ++ a :: c.live.erase a).Perm (L ++ c.live) :=
      List.Perm.append_left L (List.perm_cons_erase ha).symm
    exact (h1.trans h2).trans hp

theorem step_inv (P : Platform) (fuel : Nat) (A : List Nat) (hA : A.Nodup)
    (hz : ∀ a ∈ A, a ≠ 0) (c : Client) (op : Op) (h : Inv P A c) :
    (∃ c1, c.step P fuel op = .ok c1 ∧ Inv P A c1) ∨ c.step P fuel op = .error .violation := by
  obtain ⟨L, hh, hr⟩ := h
  cases op with
  | allocate =>
    left
    cases L with
    | nil =>
      refine ⟨_, step_allocate_nil P fuel A c hh, [], hh, ?_⟩
      intro a ha
      rcases List.mem_append.mp ha with h1 | h1
      · exact hr a h1
      · left; simpa using h1
    | cons a L =>
      obtain ⟨c1, e, hh1, _, er, _, haA⟩ := step_allocate_cons P fuel A c a L hh
      refine ⟨c1, e, L, hh1, ?_⟩
      intro x hx
      rw [er] at hx
      rcases List.mem_append.mp hx with h1 | h1
      · exact hr x h1
      · right
        have : x = a := by simpa using h1
        rw [this]; exact haA
  | deallocate a =>
    by_cases ha : a ∈ c.live
    · left
      obtain ⟨c1, e, hh1, _, er⟩ := step_deallocate P fuel A hA hz c a L hh ha
      exact ⟨c1, e, a :: L, hh1, by rw [er]; exact hr⟩
    · right
      simp [Client.step, ha]

theorem run_inv (P : Platform) (fuel : Nat) (A : List Nat) (hA : A.Nodup)
    (hz : ∀ a ∈ A, a ≠ 0) :
    ∀ (ops : List Op) (c c1 : Client), Inv P A c → c.run P fuel ops = .ok c1 → Inv P A c1
  | [], c, c1, h, e => by
    simp only [Client.run] at e
    cases e; exact h
  | op :: ops, c, c1, h, e => by
    rcases step_inv P fuel A hA hz c op h with ⟨c2, e2, h2⟩ | e2
    · simp only [Client.run, e2] at e
      exact run_inv P fuel A hA hz ops c2 c1 h2 e
    · simp [Client.run, e2] at e

theorem run_no_fault (P : Platform) (fuel : Nat) (A : List Nat) (hA : A.Nodup)
    (hz : ∀ a ∈ A, a ≠ 0) :
    ∀ (ops : List Op) (c : Client) (f : Fault), Inv P A c →
      c.run P fuel ops ≠ .error (.fault f)
  | [], c, f, _ => by simp [Client.run]
  | op :: ops, c, f, h => by
    rcases step_inv P fuel A hA hz c op h with ⟨c2, e2, h2⟩ | e2
    · simp only [Client.run, e2]
      exact run_no_fault P fuel A hA hz ops c2 f h2
    · simp [Client.run, e2]

theorem run_append (P : Platform) (fuel : Nat) :
    ∀ (xs ys : List Op) (c c1 : Client), c.run P fuel xs = .ok c1 →
      c.run P fuel (xs ++ ys) = c1.run P fuel ys
  | [], ys, c, c1, e => by
    simp only [Client.run] at e
    cases e; rfl
  | op :: xs, ys, c, c1, e => by
    simp only [List.cons_append, Client.run] at e ⊢
    cases hs : c.step P fuel op with
    | error x => simp [hs] at e
    | ok c2 =>
      simp only [hs] at e ⊢
      exact run_append P fuel xs ys c2 c1 e

/-! ## Runs of allocations and of deallocations -/

theorem run_allocates (P : Platform) (fuel : Nat) (A : List Nat) :
    ∀ (M L : List Nat) (c : Client), Holds P A c (M ++ L) →
      ∃ c1, c.run P fuel (List.replicate M.length .allocate) = .ok c1 ∧ Holds P A c1 L ∧
        c1.live = M.reverse ++ c.live ∧ c1.returned = c.returned ++ M
  | [], L, c, h => ⟨c, rfl, h, by simp, by simp⟩
  | a :: M, L, c, h => by
    obtain ⟨c1, e1, h1, l1, r1, _, _⟩ := step_allocate_cons P fuel A c a (M ++ L) h
    obtain ⟨c2, e2, h2, l2, r2⟩ := run_allocates P fuel A M L c1 h1
    refine ⟨c2, ?_, h2, ?_, ?_⟩
    · simp only [List.length_cons, List.replicate_succ, Client.run, e1]
      exact e2
    · rw [l2, l1]; simp
    · rw [r2, r1]; simp

theorem run_deallocates (P : Platform) (fuel : Nat) (A : List Nat) (hA : A.Nodup)
    (hz : ∀ a ∈ A, a ≠ 0) :
    ∀ (as L : List Nat) (c : Client), Holds P A c L → as.Nodup → (∀ a ∈ as, a ∈ c.live) →
      ∃ c1, c.run P fuel (as.map Op.deallocate) = .ok c1 ∧ Holds P A c1 (as.reverse ++ L) ∧
        c1.returned = c.returned
  | [], L, c, h, _, _ => ⟨c, rfl, by simpa using h, rfl⟩
  | a :: as, L, c, h, hn, hl => by
    obtain ⟨c1, e1, h1, l1, r1⟩ :=
      step_deallocate P fuel A hA hz c a L h (hl a (by simp))
    have hn2 := List.nodup_cons.mp hn
    have hl1 : ∀ x ∈ as, x ∈ c1.live := by
      intro x hx
      rw [l1]
      have hne : x ≠ a := fun e => hn2.1 (e ▸ hx)
      exact (List.mem_erase_of_ne hne).mpr (hl x (List.mem_cons_of_mem _ hx))
    obtain ⟨c2, e2, h2, r2⟩ := run_deallocates P fuel A hA hz as (a :: L) c1 h1 hn2.2 hl1
    refine ⟨c2, ?_, ?_, by rw [r2, r1]⟩
    · simp only [List.map_cons, Client.run, e1]
      exact e2
    · simpa using h2

/-! ## Construction -/

theorem linkLoop_spec (P : Platform) (S : Nat) (hS : 0 < S) :
    ∀ (n : Nat) (cur : Nat) (m : Memory) (last : Nat) (m1 : Memory),
      linkLoop P S n cur m = .ok (last, m1) →
      last = cur + n * S ∧ m1.base = m.base ∧ m1.size = m.size ∧
      (∀ i, i < n → m.inBounds P (cur + i * S)) ∧
      (∀ i, i < n → m1.next (cur + i * S) = cur + (i + 1) * S) ∧
      (∀ a, a < cur → m1.next a = m.next a)
  | 0, cur, m, last, m1, e => by
    simp only [linkLoop, Except.ok.injEq, Prod.mk.injEq] at e
    obtain ⟨e1, e2⟩ := e
    subst e1; subst e2
    simp
  | n + 1, cur, m, last, m1, e => by
    simp only [linkLoop, Memory.store] at e
    by_cases hin : m.inBounds P cur
    · simp only [hin, if_true] at e
      obtain ⟨e1, e2, e3, e4, e5, e6⟩ := linkLoop_spec P S hS n (cur + S) _ last m1 e
      refine ⟨by rw [e1, Nat.add_mul]; omega, e2, e3, ?_, ?_, ?_⟩
      · intro i hi
        cases i with
        | zero => simpa using hin
        | succ j =>
          have := e4 j (by omega)
          simp only [Memory.inBounds] at this ⊢
          rw [Nat.add_mul]
          have e : cur + (j * S + 1 * S) = cur + S + j * S := by omega
          rw [e]; exact this
      · intro i hi
        cases i with
        | zero =>
          have := e6 cur (by omega)
          simp only [Function.update_same] at this
          simp [this]
        | succ j =>
          have := e5 j (by omega)
          have e : cur + (j + 1) * S = cur + S + j * S := by rw [Nat.add_mul]; omega
          rw [e, this, Nat.add_mul (j + 1) 1 S, Nat.add_mul j 1 S]; omega
      · intro a ha
        rw [e6 a (by omega)]
        exact Function.update_noteq (by omega) _ _
    · simp [hin] at e

theorem chain_slots (next : Nat → Nat) (S : Nat) :
    ∀ (n : Nat) (cur : Nat), 0 < cur →
      (∀ i, i < n → next (cur + i * S) = cur + (i + 1) * S) →
      next (cur + n * S) = 0 → Chain next cur (slots cur S (n + 1))
  | 0, cur, hc, _, hz => by
    refine ⟨rfl, by omega, ?_⟩
    simpa [slots, Chain] using hz
  | n + 1, cur, hc, hl, hz => by
    refine ⟨rfl, by omega, ?_⟩
    have h0 := hl 0 (by omega)
    simp only [Nat.zero_mul, Nat.add_zero, Nat.zero_add, Nat.one_mul] at h0
    rw [h0]
    apply chain_slots next S n (cur + S) (by omega)
    · intro i hi
      have := hl (i + 1) (by omega)
      have e : cur + (i + 1) * S = cur + S + i * S := by rw [Nat.add_mul]; omega
      rw [e] at this
      rw [this]; ring
    · have e : cur + (n + 1) * S = cur + S + n * S := by rw [Nat.add_mul]; omega
      rw [← e]; exact hz

theorem loopBound_eq (P : Platform) (N : Nat) (h1 : 1 ≤ N) (h2 : N < 2 ^ P.w) :
    loopBound P N = N - 1 := by
  unfold loopBound
  have e : N + 2 ^ P.w - 1 = (N - 1) + 2 ^ P.w := by omega
  rw [e, Nat.add_mod_right, Nat.mod_eq_of_lt (by omega)]

theorem store_ok (P : Platform) (m m2 : Memory) (a v : Nat) (e : m.store P a v = .ok m2) :
    m.inBounds P a ∧ m2.base = m.base ∧ m2.size = m.size ∧
      m2.next = Function.update m.next a v := by
  simp only [Memory.store] at e
  by_cases hin : m.inBounds P a
  · simp only [hin, if_true, Except.ok.injEq] at e
    subst e
    exact ⟨hin, rfl, rfl, rfl⟩
  · simp [hin] at e

theorem construct_core (P : Platform) (S N : Nat) (h : NewBlock) (sz cur : Nat)
    (m m2 : Memory) (hS : 0 < S) (h1 : 1 ≤ N) (h2 : N < 2 ^ P.w)
    (e1 : linkLoop P S (loopBound P N) h.base (h.alloc sz) = .ok (cur, m))
    (e2 : m.store P cur 0 = .ok m2) :
    Chain m2.next h.base (slots h.base S N) ∧ ∀ a ∈ slots h.base S N, m2.inBounds P a := by
  rw [loopBound_eq P N h1 h2] at e1
  obtain ⟨l1, l2, l3, l4, l5, _⟩ := linkLoop_spec P S hS (N - 1) h.base _ cur m e1
  obtain ⟨s1, s2, s3, s4⟩ := store_ok P m m2 cur 0 e2
  have hN : N = (N - 1) + 1 := by omega
  constructor
  · rw [hN]
    apply chain_slots m2.next S (N - 1) h.base h.base_pos
    · intro i hi
      rw [s4, Function.update_noteq, l5 i hi]
      rw [l1]
      have : i * S < (N - 1) * S := Nat.mul_lt_mul_of_pos_right hi hS
      omega
    · rw [s4, ← l1, Function.update_same]
  · intro a ha
    rw [mem_slots] at ha
    obtain ⟨i, hi, ha⟩ := ha
    by_cases hlast : i = N - 1
    · have : a = cur := by rw [ha, l1, hlast]
      rw [this]
      simp only [Memory.inBounds] at s1 ⊢
      rw [s2, s3]; exact s1
    · have := l4 i (by omega)
      simp only [Memory.inBounds] at this ⊢
      rw [s2, s3, l2, l3, ha]; exact this

theorem fresh_holds (k : Backend) (P : Platform) (S N : Nat) (h : NewBlock)
    (b : MemoryPoolBase) (h1 : 1 ≤ N) (h2 : N < 2 ^ P.w)
    (e : make_unique k P S h N = .ok b) :
    Holds P (slots h.base S N) (Client.fresh b) (slots h.base S N) ∧ b.backend = k ∧
      0 < S := by
  have hp := P.ptr_pos
  cases k with
  | lockFree =>
    simp only [make_unique, LockFreeMemoryPool.construct] at e
    by_cases hs : S < P.ptrSize
    · simp [hs] at e
    · by_cases hl : LockFreeMemoryPool.is_lock_free P = true
      · simp only [hs, if_false, hl, Bool.not_true] at e
        cases e1 : linkLoop P S (loopBound P N) (h.alloc (arenaBytes P S N)).base
            (h.alloc (arenaBytes P S N)) with
        | error f => simp [e1] at e
        | ok r =>
          obtain ⟨cur, m⟩ := r
          simp only [e1] at e
          cases e2 : m.store P cur 0 with
          | error f => simp [e2] at e
          | ok m2 =>
            simp only [e2, Bool.false_eq_true, if_false, Except.ok.injEq] at e
            subst e
            have hc := construct_core P S N h _ cur m m2 (by omega) h1 h2 e1 e2
            refine ⟨⟨⟨hc.1, hc.2⟩, ?_⟩, rfl, by omega⟩
            simp [Client.fresh]
      · simp [hs, hl] at e
  | mutex =>
    simp only [make_unique, MutexMemoryPool.construct] at e
    by_cases hs : S < P.ptrSize
    · simp [hs] at e
    · simp only [hs, if_false] at e
      cases e1 : linkLoop P S (loopBound P N) (h.alloc (arenaBytes P S N)).base
          (h.alloc (arenaBytes P S N)) with
      | error f => simp [e1] at e
      | ok r =>
        obtain ⟨cur, m⟩ := r
        simp only [e1] at e
        cases e2 : m.store P cur 0 with
        | error f => simp [e2] at e
        | ok m2 =>
          simp only [e2, Except.ok.injEq] at e
          subst e
          have hc := construct_core P S N h _ cur m m2 (by omega) h1 h2 e1 e2
          refine ⟨⟨⟨hc.1, hc.2⟩, ?_⟩, rfl, by omega⟩
          simp [Client.fresh]

theorem fresh_inv (k : Backend) (P : Platform) (S N : Nat) (h : NewBlock)
    (b : MemoryPoolBase) (h1 : 1 ≤ N) (h2 : N < 2 ^ P.w)
    (e : make_unique k P S h N = .ok b) :
    Inv P (slots h.base S N) (Client.fresh b) :=
  ⟨_, (fresh_holds k P S N h b h1 h2 e).1, by simp [Client.fresh]⟩

theorem calls_of_run (P : Platform) (fuel : Nat) :
    ∀ (ops : List Op) (c c1 : Client), c.run P fuel ops = .ok c1 →
      ∃ rs, c1.returned = c.returned ++ rs ∧
        AdaptiveMemoryPool.calls P fuel ⟨c.pool⟩ ops = .ok (rs, ⟨c1.pool⟩)
  | [], c, c1, e => by
    simp only [Client.run, Except.ok.injEq] at e
    subst e
    exact ⟨[], by simp, rfl⟩
  | .allocate :: ops, c, c1, e => by
    simp only [Client.run, Client.step] at e
    cases ha : c.pool.allocate P fuel with
    | error f => simp [ha] at e
    | ok r =>
      obtain ⟨a, b⟩ := r
      simp only [ha] at e
      obtain ⟨rs, e1, e2⟩ := calls_of_run P fuel ops _ c1 e
      refine ⟨a :: rs, by simpa using e1, ?_⟩
      simp only [AdaptiveMemoryPool.calls, AdaptiveMemoryPool.allocate, ha]
      simp only at e2
      rw [e2]
  | .deallocate ptr :: ops, c, c1, e => by
    simp only [Client.run, Client.step] at e
    by_cases hp : ptr ∈ c.live
    · simp only [hp, if_true] at e
      cases hd : c.pool.deallocate P fuel ptr with
      | error f => simp [hd] at e
      | ok b =>
        simp only [hd] at e
        obtain ⟨rs, e1, e2⟩ := calls_of_run P fuel ops _ c1 e
        refine ⟨rs, e1, ?_⟩
        simp only [AdaptiveMemoryPool.calls, AdaptiveMemoryPool.deallocate, hd]
        exact e2
    · simp [hp] at e

theorem adaptive_construct_ok (P : Platform) (S N : Nat) (h : NewBlock)
    (a : AdaptiveMemoryPool) (e : AdaptiveMemoryPool.construct P S h N = .ok a) :
    make_unique (if LockFreeMemoryPool.is_lock_free P then .lockFree else .mutex) P S h N
      = .ok a.pool_ := by
  unfold AdaptiveMemoryPool.construct at e
  by_cases hl : LockFreeMemoryPool.is_lock_free P = true
  · simp only [hl, if_true] at e ⊢
    cases hm : make_unique .lockFree P S h N with
    | error f => simp [hm] at e
    | ok b =>
      simp only [hm, Except.ok.injEq] at e
      subst e; rfl
  · simp only [hl, Bool.false_eq_true, if_false] at e ⊢
    cases hm : make_unique .mutex P S h N with
    | error f => simp [hm] at e
    | ok b =>
      simp only [hm, Except.ok.injEq] at e
      subst e; rfl

theorem run_capacity (P : Platform) (fuel : Nat) (k : Backend) (S N : Nat) (h : NewBlock)
    (b : MemoryPoolBase) (h1 : 1 ≤ N) (h2 : N < 2 ^ P.w)
    (e : make_unique k P S h N = .ok b) :
    ∃ c, (Client.fresh b).run P fuel (List.replicate (N + 1) .allocate) = .ok c ∧
      c.returned = slots h.base S N ++ [0] ∧ c.live = (slots h.base S N).reverse ∧
      Holds P (slots h.base S N) c [] := by
  obtain ⟨hh, _, _⟩ := fresh_holds k P S N h b h1 h2 e
  have hh0 : Holds P (slots h.base S N) (Client.fresh b) (slots h.base S N ++ []) := by
    simpa using hh
  obtain ⟨c1, e1, hh1, l1, r1⟩ := run_allocates P fuel _ (slots h.base S N) [] _ hh0
  rw [slots_length] at e1
  have e2 := step_allocate_nil P fuel _ c1 hh1
  refine ⟨⟨c1.pool, c1.live, c1.returned ++ [0]⟩, ?_, ?_, ?_, hh1⟩
  · have : List.replicate (N + 1) Op.allocate = List.replicate N Op.allocate ++ [Op.allocate] := by
      rw [List.replicate_succ']
    rw [this, run_append P fuel _ _ _ c1 e1]
    simp [Client.run, e2]
  · simp [r1, Client.fresh]
  · simp [l1, Client.fresh]

theorem sim_step (P : Platform) (fuel : Nat) (A : List Nat) (hA : A.Nodup)
    (hz : ∀ a ∈ A, a ≠ 0) (cl cm : Client) (op : Op) (h : Sim P A cl cm) :
    (∃ cl1 cm1, cl.step P fuel op = .ok cl1 ∧ cm.step P fuel op = .ok cm1 ∧
      Sim P A cl1 cm1) ∨
    (cl.step P fuel op = .error .violation ∧ cm.step P fuel op = .error .violation) := by
  obtain ⟨L, hl, hm, el, er⟩ := h
  cases op with
  | allocate =>
    left
    cases L with
    | nil =>
      refine ⟨_, _, step_allocate_nil P fuel A cl hl, step_allocate_nil P fuel A cm hm,
        [], hl, hm, el, ?_⟩
      simp [er]
    | cons a L =>
      obtain ⟨cl1, e1, g1, l1, r1, _, _⟩ := step_allocate_cons P fuel A cl a L hl
      obtain ⟨cm1, e2, g2, l2, r2, _, _⟩ := step_allocate_cons P fuel A cm a L hm
      exact ⟨cl1, cm1, e1, e2, L, g1, g2, by rw [l1, l2, el], by rw [r1, r2, er]⟩
  | deallocate a =>
    by_cases ha : a ∈ cl.live
    · left
      obtain ⟨cl1, e1, g1, l1, r1⟩ := step_deallocate P fuel A hA hz cl a L hl ha
      obtain ⟨cm1, e2, g2, l2, r2⟩ := step_deallocate P fuel A hA hz cm a L hm (el ▸ ha)
      exact ⟨cl1, cm1, e1, e2, a :: L, g1, g2, by rw [l1, l2, el], by rw [r1, r2, er]⟩
    · right
      have ha2 : a ∉ cm.live := el ▸ ha
      exact ⟨by simp [Client.step, ha], by simp [Client.step, ha2]⟩

theorem sim_run (P : Platform) (fuel : Nat) (A : List Nat) (hA : A.Nodup)
    (hz : ∀ a ∈ A, a ≠ 0) :
    ∀ (ops : List Op) (cl cm : Client), Sim P A cl cm →
      (∃ cl1 cm1, cl.run P fuel ops = .ok cl1 ∧ cm.run P fuel ops = .ok cm1 ∧
        Sim P A cl1 cm1) ∨
      (cl.run P fuel ops = .error .violation ∧ cm.run P fuel ops = .error .violation)
  | [], cl, cm, h => Or.inl ⟨cl, cm, rfl, rfl, h⟩
  | op :: ops, cl, cm, h => by
    rcases sim_step P fuel A hA hz cl cm op h with ⟨cl1, cm1, e1, e2, h1⟩ | ⟨e1, e2⟩
    · simp only [Client.run, e1, e2]
      exact sim_run P fuel A hA hz ops cl1 cm1 h1
    · right
      simp [Client.run, e1, e2]

theorem fresh_raw_memory (k : Backend) (P : Platform) (S N : Nat) (h : NewBlock)
    (b : MemoryPoolBase) (e : make_unique k P S h N = .ok b) : b.raw_memory_ = h.base := by
  cases k with
  | lockFree =>
    simp only [make_unique] at e
    cases hc : LockFreeMemoryPool.construct P S h N with
    | error f => simp [hc] at e
    | ok p =>
      simp only [hc, Except.ok.injEq] at e
      subst e
      simp only [LockFreeMemoryPool.construct] at hc
      split at hc
      · simp at hc
      · split at hc
        · simp at hc
        · split at hc
          · simp at hc
          · split at hc
            · simp at hc
            · simp only [Except.ok.injEq] at hc
              subst hc
              rfl
  | mutex =>
    simp only [make_unique] at e
    cases hc : MutexMemoryPool.construct P S h N with
    | error f => simp [hc] at e
    | ok p =>
      simp only [hc, Except.ok.injEq] at e
      subst e
      simp only [MutexMemoryPool.construct] at hc
      split at hc
      · simp at hc
      · split at hc
        · simp at hc
        · split at hc
          · simp at hc
          · simp only [Except.ok.injEq] at hc
            subst hc
            rfl

theorem store_fault (P : Platform) (m : Memory) (a v : Nat) (f : Fault)
    (e : m.store P a v = .error f) : f = .undefinedBehaviour := by
  simp only [Memory.store] at e
  split at e
  · cases e
  · simp only [Except.error.injEq] at e
    exact e.symm

theorem load_fault (P : Platform) (m : Memory) (a : Nat) (f : Fault)
    (e : m.load P a = .error f) : f = .undefinedBehaviour := by
  simp only [Memory.load] at e
  split at e
  · cases e
  · simp only [Except.error.injEq] at e
    exact e.symm

theorem linkLoop_fault (P : Platform) (S : Nat) :
    ∀ (n cur : Nat) (m : Memory) (f : Fault),
      linkLoop P S n cur m = .error f → f = .undefinedBehaviour
  | 0, _, _, _, e => by simp [linkLoop] at e
  | n + 1, cur, m, f, e => by
    simp only [linkLoop] at e
    cases hs : m.store P cur (cur + S) with
    | error g =>
      simp only [hs, Except.error.injEq] at e
      rw [← e]
      exact store_fault P m cur _ g hs
    | ok m1 =>
      simp only [hs] at e
      exact linkLoop_fault P S n _ m1 f e

theorem lockFree_construct_throws (P : Platform) (S N : Nat) (h : NewBlock) :
    LockFreeMemoryPool.construct P S h N = .error .runtimeError ↔
      P.ptrSize ≤ S ∧ LockFreeMemoryPool.is_lock_free P = false := by
  unfold LockFreeMemoryPool.construct
  by_cases hs : S < P.ptrSize
  · simp only [hs, if_true]
    constructor
    · intro e; cases e
    · intro ⟨h1, _⟩; omega
  · cases hl : LockFreeMemoryPool.is_lock_free P with
    | false => simp [hs]; omega
    | true =>
      simp only [hs, if_false, Bool.not_true, Bool.false_eq_true, and_false, iff_false]
      cases e1 : linkLoop P S (loopBound P N) (h.alloc (arenaBytes P S N)).base
          (h.alloc (arenaBytes P S N)) with
      | error f =>
        have := linkLoop_fault P S _ _ _ f e1
        subst this
        simp
      | ok r =>
        obtain ⟨cur, m⟩ := r
        cases e2 : m.store P cur 0 with
        | error f =>
          have := store_fault P m cur 0 f e2
          subst this
          simp [e2]
        | ok m2 => simp [e2]

theorem mutex_construct_no_throw (P : Platform) (S N : Nat) (h : NewBlock) :
    MutexMemoryPool.construct P S h N ≠ .error .runtimeError := by
  unfold MutexMemoryPool.construct
  by_cases hs : S < P.ptrSize
  · simp [hs]
  · simp only [hs, if_false]
    cases e1 : linkLoop P S (loopBound P N) (h.alloc (arenaBytes P S N)).base
        (h.alloc (arenaBytes P S N)) with
    | error f =>
      have := linkLoop_fault P S _ _ _ f e1
      subst this
      simp
    | ok r =>
      obtain ⟨cur, m⟩ := r
      cases e2 : m.store P cur 0 with
      | error f =>
        have := store_fault P m cur 0 f e2
        subst this
        simp [e2]
      | ok m2 => simp [e2]

theorem adaptive_construct_no_throw (P : Platform) (S N : Nat) (h : NewBlock) :
    AdaptiveMemoryPool.construct P S h N ≠ .error .runtimeError := by
  unfold AdaptiveMemoryPool.construct
  cases hl : LockFreeMemoryPool.is_lock_free P with
  | true =>
    simp only [if_true, make_unique]
    have hk : LockFreeMemoryPool.construct P S h N ≠ .error .runtimeError := by
      rw [Ne, lockFree_construct_throws, hl]
      simp
    cases hc : LockFreeMemoryPool.construct P S h N with
    | error f =>
      rw [hc] at hk
      simpa using hk
    | ok p => simp
  | false =>
    simp only [Bool.false_eq_true, if_false, make_unique]
    have hk := mutex_construct_no_throw P S N h
    cases hc : MutexMemoryPool.construct P S h N with
    | error f =>
      rw [hc] at hk
      simpa using hk
    | ok p => simp

theorem make_unique_backend (k : Backend) (P : Platform) (S N : Nat) (h : NewBlock)
    (b : MemoryPoolBase) (e : make_unique k P S h N = .ok b) : b.backend = k := by
  cases k with
  | lockFree =>
    simp only [make_unique] at e
    cases hc : LockFreeMemoryPool.construct P S h N with
    | error f => simp [hc] at e
    | ok p =>
      simp only [hc, Except.ok.injEq] at e
      subst e; rfl
  | mutex =>
    simp only [make_unique] at e
    cases hc : MutexMemoryPool.construct P S h N with
    | error f => simp [hc] at e
    | ok p =>
      simp only [hc, Except.ok.injEq] at e
      subst e; rfl

theorem allocate_backend (P : Platform) (fuel : Nat) (b b1 : MemoryPoolBase) (r : Nat)
    (e : b.allocate P fuel = .ok (r, b1)) : b1.backend = b.backend := by
  cases b with
  | lockFree p =>
    simp only [MemoryPoolBase.allocate] at e
    cases hp : p.allocate P fuel with
    | error f => simp [hp] at e
    | ok x =>
      simp only [hp, Except.ok.injEq, Prod.mk.injEq] at e
      rw [← e.2]; rfl
  | mutex p =>
    simp only [MemoryPoolBase.allocate] at e
    cases hp : p.allocate P with
    | error f => simp [hp] at e
    | ok x =>
      simp only [hp, Except.ok.injEq, Prod.mk.injEq] at e
      rw [← e.2]; rfl

theorem deallocate_backend (P : Platform) (fuel : Nat) (b b1 : MemoryPoolBase) (ptr : Nat)
    (e : b.deallocate P fuel ptr = .ok b1) : b1.backend = b.backend := by
  cases b with
  | lockFree p =>
    simp only [MemoryPoolBase.deallocate] at e
    cases hp : p.deallocate P fuel ptr with
    | error f => simp [hp] at e
    | ok x =>
      simp only [hp, Except.ok.injEq] at e
      rw [← e]; rfl
  | mutex p =>
    simp only [MemoryPoolBase.deallocate] at e
    cases hp : p.deallocate P ptr with
    | error f => simp [hp] at e
    | ok x =>
      simp only [hp, Except.ok.injEq] at e
      rw [← e]; rfl

theorem lockFree_allocateLoop_fault (P : Platform) :
    ∀ (n : Nat) (p : LockFreeMemoryPool) (f : Fault),
      LockFreeMemoryPool.allocateLoop P n p = .error f → f ≠ .runtimeError
  | 0, _, f, e => by
    simp only [LockFreeMemoryPool.allocateLoop, Except.error.injEq] at e
    rw [← e]; decide
  | n + 1, p, f, e => by
    rw [allocateLoop_succ] at e
    split at e
    · cases e
    · cases hl : p.heap.load P p.head_.ptr with
      | error g =>
        simp only [hl, Except.error.injEq] at e
        rw [← e, load_fault P _ _ g hl]; decide
      | ok nxt =>
        simp only [hl] at e
        cases e

theorem linkLoop_ok (P : Platform) (S : Nat) :
    ∀ (n cur : Nat) (m : Memory), (∀ i, i < n → m.inBounds P (cur + i * S)) →
      ∃ r, linkLoop P S n cur m = .ok r
  | 0, cur, m, _ => ⟨(cur, m), rfl⟩
  | n + 1, cur, m, hb => by
    have h0 : m.inBounds P cur := by simpa using hb 0 (by omega)
    simp only [linkLoop, Memory.store, h0, if_true]
    apply linkLoop_ok P S n (cur + S)
    intro i hi
    have := hb (i + 1) (by omega)
    have e : cur + (i + 1) * S = cur + S + i * S := by ring
    rw [e] at this
    exact this

theorem construct_parts_ok (P : Platform) (S N : Nat) (h : NewBlock)
    (hs : P.ptrSize ≤ S) (h1 : 1 ≤ N) (hfit : S * N < 2 ^ P.w) :
    ∃ cur m m2, linkLoop P S (loopBound P N) (h.alloc (arenaBytes P S N)).base
        (h.alloc (arenaBytes P S N)) = .ok (cur, m) ∧ m.store P cur 0 = .ok m2 := by
  have hp := P.ptr_pos
  have hS : 0 < S := by omega
  have hN : N < 2 ^ P.w := lt_of_le_of_lt (Nat.le_mul_of_pos_left N hS) hfit
  have hsz : arenaBytes P S N = S * N := Nat.mod_eq_of_lt hfit
  have hin : ∀ i, i < N → (h.alloc (arenaBytes P S N)).inBounds P (h.base + i * S) := by
    intro i hi
    have hle : (i + 1) * S ≤ N * S := Nat.mul_le_mul_right S hi
    rw [Nat.add_mul] at hle
    simp only [Memory.inBounds, NewBlock.alloc, hsz]
    rw [Nat.mul_comm S N]
    omega
  rw [loopBound_eq P N h1 hN]
  obtain ⟨⟨cur, m⟩, e1⟩ := linkLoop_ok P S (N - 1) h.base (h.alloc (arenaBytes P S N))
    (fun i hi => hin i (by omega))
  obtain ⟨l1, l2, l3, _⟩ := linkLoop_spec P S hS (N - 1) h.base _ cur m e1
  have hc : m.inBounds P cur := by
    have := hin (N - 1) (by omega)
    simp only [Memory.inBounds] at this ⊢
    rw [l1, l2, l3]; exact this
  refine ⟨cur, m, { m with next := Function.update m.next cur 0 }, e1, ?_⟩
  simp [Memory.store, hc]

theorem make_unique_ok (k : Backend) (P : Platform) (S N : Nat) (h : NewBlock)
    (hs : P.ptrSize ≤ S) (h1 : 1 ≤ N) (hfit : S * N < 2 ^ P.w)
    (hk : k = .lockFree → LockFreeMemoryPool.is_lock_free P = true) :
    ∃ b, make_unique k P S h N = .ok b := by
  obtain ⟨cur, m, m2, e1, e2⟩ := construct_parts_ok P S N h hs h1 hfit
  have hs2 : ¬ S < P.ptrSize := by omega
  cases k with
  | lockFree =>
    simp [make_unique, LockFreeMemoryPool.construct, hs2, hk rfl, e1, e2]
  | mutex =>
    simp [make_unique, MutexMemoryPool.construct, hs2, e1, e2]

/-! ## The claims -/

/-- C1 (capacity bound).  For every capacity `N >= 1` (a `size_t` value) and
either backend class, on a freshly constructed pool `N + 1` calls of
`allocate()` in a row return: `N` non-null addresses, then `nullptr`.  The same
holds for the calls made through a freshly constructed `AdaptiveMemoryPool`. -/
theorem capacity_bound (P : Platform) (S N : Nat) (h : NewBlock) (fuel : Nat)
    (h1 : 1 ≤ N) (h2 : N < 2 ^ P.w) :
    (∀ k b, make_unique k P S h N = .ok b →
      ∃ c first, (Client.fresh b).run P fuel (List.replicate (N + 1) .allocate) = .ok c ∧
        c.returned = first ++ [0] ∧ first.length = N ∧ ∀ x ∈ first, x ≠ 0) ∧
    (∀ a, AdaptiveMemoryPool.construct P S h N = .ok a →
      ∃ a1 first, a.calls P fuel (List.replicate (N + 1) .allocate) = .ok (first ++ [0], a1) ∧
        first.length = N ∧ ∀ x ∈ first, x ≠ 0) := by
  have key : ∀ k b, make_unique k P S h N = .ok b →
      ∃ c, (Client.fresh b).run P fuel (List.replicate (N + 1) .allocate) = .ok c ∧
        c.returned = slots h.base S N ++ [0] := by
    intro k b e
    obtain ⟨c, e1, e2, _⟩ := run_capacity P fuel k S N h b h1 h2 e
    exact ⟨c, e1, e2⟩
  have hz : ∀ x ∈ slots h.base S N, x ≠ 0 :=
    fun x hx => slots_ne_zero S N h.base x h.base_pos hx
  constructor
  · intro k b e
    obtain ⟨c, e1, e2⟩ := key k b e
    exact ⟨c, _, e1, e2, slots_length S N _, hz⟩
  · intro a e
    obtain ⟨c, e1, e2⟩ := key _ _ (adaptive_construct_ok P S N h a e)
    obtain ⟨rs, r1, r2⟩ := calls_of_run P fuel _ _ c e1
    simp only [Client.fresh, List.nil_append] at r1 r2
    rw [e2] at r1
    exact ⟨_, _, by rw [r1]; exact r2, slots_length S N _, hz⟩

/-- Witness for `capacity_bound`: a lock-free pool and a facade of capacity 3
on a 64-bit platform. -/
theorem capacity_bound_witness :
    (∃ b c first, make_unique .lockFree x86_64 sizeofMyObject block4096 3 = .ok b ∧
      (Client.fresh b).run x86_64 0 (List.replicate (3 + 1) .allocate) = .ok c ∧
      c.returned = first ++ [0] ∧ first.length = 3 ∧ ∀ x ∈ first, x ≠ 0) ∧
    (∃ a a1 first, AdaptiveMemoryPool.construct x86_64 sizeofMyObject block4096 3 = .ok a ∧
      a.calls x86_64 0 (List.replicate (3 + 1) .allocate) = .ok (first ++ [0], a1) ∧
      first.length = 3 ∧ ∀ x ∈ first, x ≠ 0) := by
  have t := capacity_bound x86_64 sizeofMyObject 3 block4096 0 (by decide) (by decide)
  constructor
  · obtain ⟨c, first, hc⟩ := t.1 .lockFree _ rfl
    exact ⟨_, c, first, rfl, hc⟩
  · obtain ⟨a1, first, hc⟩ := t.2 _ rfl
    exact ⟨_, a1, first, rfl, hc⟩

/-- C2 (no double issue).  For every capacity `N >= 1` and every sequence of
calls that respects the precondition of `deallocate`, performed one call at a
time on a freshly constructed pool of either backend, a call of `allocate()`
that succeeds in the state reached returns an address the client does not
currently hold. -/
theorem no_double_issue (k : Backend) (P : Platform) (S N : Nat) (h : NewBlock) (fuel : Nat)
    (b : MemoryPoolBase) (h1 : 1 ≤ N) (h2 : N < 2 ^ P.w)
    (e : make_unique k P S h N = .ok b) (ops : List Op) (c : Client)
    (hr : (Client.fresh b).run P fuel ops = .ok c) (a : Nat) (b1 : MemoryPoolBase)
    (ha : c.pool.allocate P fuel = .ok (a, b1)) (hz : a ≠ 0) : a ∉ c.live := by
  obtain ⟨_, _, hS⟩ := fresh_holds k P S N h b h1 h2 e
  have hA := slots_nodup S hS N h.base
  have hA0 : ∀ x ∈ slots h.base S N, x ≠ 0 :=
    fun x hx => slots_ne_zero S N h.base x h.base_pos hx
  obtain ⟨L, hh, _⟩ := run_inv P fuel _ hA hA0 ops _ c (fresh_inv k P S N h b h1 h2 e) hr
  cases L with
  | nil =>
    rw [desc_allocate_nil P fuel _ c.pool hh.1] at ha
    simp only [Except.ok.injEq, Prod.mk.injEq] at ha
    exact absurd ha.1.symm hz
  | cons x L =>
    have hx : x ∈ slots h.base S N := hh.2.subset (by simp)
    obtain ⟨b2, e2, _, _⟩ := desc_allocate_cons P fuel _ c.pool x L hh.1 hx
    rw [e2] at ha
    simp only [Except.ok.injEq, Prod.mk.injEq] at ha
    have hnd : (x :: L ++ c.live).Nodup := hh.2.nodup_iff.mpr hA
    intro hm
    rw [← ha.1] at hm
    exact (List.nodup_append.mp hnd).2.2 (List.mem_cons_self x L) hm

/-- Witness for `no_double_issue`: capacity 2, after allocate, allocate,
deallocate(4096), the next allocate returns 4096 while 4160 is held. -/
theorem no_double_issue_witness :
    ∃ b c b1, make_unique .mutex x86_64 sizeofMyObject block4096 2 = .ok b ∧
      (Client.fresh b).run x86_64 0 [.allocate, .allocate, .deallocate 4096] = .ok c ∧
      c.pool.allocate x86_64 0 = .ok (4096, b1) ∧ c.live = [4160] ∧ 4096 ∉ c.live :=
  ⟨_, _, _, rfl, rfl, rfl, rfl,
    no_double_issue .mutex x86_64 sizeofMyObject 2 block4096 0 _ (by decide) (by decide) rfl
      [.allocate, .allocate, .deallocate 4096] _ rfl 4096 _ rfl (by decide)⟩

/-- C3 (round-trip reuse).  For every capacity `N >= 1`: `N` calls of
`allocate()` on a fresh pool return `N` non-null addresses; whatever the order
in which these `N` addresses are then deallocated, the next `N` calls of
`allocate()` return a rearrangement of the same addresses, and one more call
returns `nullptr`. -/
theorem round_trip_reuse (k : Backend) (P : Platform) (S N : Nat) (h : NewBlock) (fuel : Nat)
    (b : MemoryPoolBase) (h1 : 1 ≤ N) (h2 : N < 2 ^ P.w)
    (e : make_unique k P S h N = .ok b) :
    ∃ c1, (Client.fresh b).run P fuel (List.replicate N .allocate) = .ok c1 ∧
      c1.returned.length = N ∧ (∀ x ∈ c1.returned, x ≠ 0) ∧
      ∀ order : List Nat, order.Perm c1.returned →
        ∃ c2 second, c1.run P fuel (order.map .deallocate ++ List.replicate (N + 1) .allocate)
            = .ok c2 ∧
          c2.returned = c1.returned ++ second ++ [0] ∧ second.Perm c1.returned := by
  obtain ⟨hh, _, hS⟩ := fresh_holds k P S N h b h1 h2 e
  have hA := slots_nodup S hS N h.base
  have hA0 : ∀ x ∈ slots h.base S N, x ≠ 0 :=
    fun x hx => slots_ne_zero S N h.base x h.base_pos hx
  have hh0 : Holds P (slots h.base S N) (Client.fresh b) (slots h.base S N ++ []) := by
    simpa using hh
  obtain ⟨c1, e1, hc1, l1, r1⟩ := run_allocates P fuel _ (slots h.base S N) [] _ hh0
  rw [slots_length] at e1
  have r1 : c1.returned = slots h.base S N := by simpa [Client.fresh] using r1
  have l1 : c1.live = (slots h.base S N).reverse := by simpa [Client.fresh] using l1
  refine ⟨c1, e1, by rw [r1, slots_length], by rw [r1]; exact hA0, ?_⟩
  intro order ho
  rw [r1] at ho
  have hon : order.Nodup := ho.nodup_iff.mpr hA
  have hol : ∀ a ∈ order, a ∈ c1.live := by
    intro a ha
    rw [l1, List.mem_reverse]
    exact ho.subset ha
  obtain ⟨c2, e2, hc2, r2⟩ := run_deallocates P fuel _ hA hA0 order [] c1 hc1 hon hol
  obtain ⟨c3, e3, hc3, _, r3⟩ := run_allocates P fuel _ order.reverse [] c2 hc2
  have hlen : order.reverse.length = N := by
    rw [List.length_reverse, ho.length_eq, slots_length]
  rw [hlen] at e3
  have e4 := step_allocate_nil P fuel _ c3 hc3
  refine ⟨⟨c3.pool, c3.live, c3.returned ++ [0]⟩, order.reverse, ?_, ?_, ?_⟩
  · rw [run_append P fuel _ _ c1 c2 e2, List.replicate_succ',
      run_append P fuel _ _ c2 c3 e3]
    simp [Client.run, e4]
  · simp [r3, r2]
  · rw [r1]
    exact (List.reverse_perm order).trans ho

/-- Witness for `round_trip_reuse`: a lock-free pool of capacity 3. -/
theorem round_trip_reuse_witness :
    ∃ b c1, make_unique .lockFree x86_64 sizeofMyObject block4096 3 = .ok b ∧
      (Client.fresh b).run x86_64 0 (List.replicate 3 .allocate) = .ok c1 ∧
      c1.returned.length = 3 ∧ (∀ x ∈ c1.returned, x ≠ 0) ∧
      ∀ order : List Nat, order.Perm c1.returned →
        ∃ c2 second,
          c1.run x86_64 0 (order.map .deallocate ++ List.replicate (3 + 1) .allocate) = .ok c2 ∧
          c2.returned = c1.returned ++ second ++ [0] ∧ second.Perm c1.returned := by
  obtain ⟨c1, hc⟩ :=
    round_trip_reuse .lockFree x86_64 sizeofMyObject 3 block4096 0 _ (by decide) (by decide) rfl
  exact ⟨_, c1, rfl, hc⟩

/-- C4 (LIFO discipline).  In every state reached from a fresh pool by calls
that respect the precondition of `deallocate`, when distinct held addresses
`a1, ..., ak` are deallocated in this order, the next `k` calls of `allocate()`
return `ak, ..., a1`. -/
theorem lifo_discipline (k : Backend) (P : Platform) (S N : Nat) (h : NewBlock) (fuel : Nat)
    (b : MemoryPoolBase) (h1 : 1 ≤ N) (h2 : N < 2 ^ P.w)
    (e : make_unique k P S h N = .ok b) (ops : List Op) (c : Client)
    (hr : (Client.fresh b).run P fuel ops = .ok c)
    (as : List Nat) (hn : as.Nodup) (hl : ∀ a ∈ as, a ∈ c.live) :
    ∃ c1, c.run P fuel (as.map .deallocate ++ List.replicate as.length .allocate) = .ok c1 ∧
      c1.returned = c.returned ++ as.reverse := by
  obtain ⟨_, _, hS⟩ := fresh_holds k P S N h b h1 h2 e
  have hA := slots_nodup S hS N h.base
  have hA0 : ∀ x ∈ slots h.base S N, x ≠ 0 :=
    fun x hx => slots_ne_zero S N h.base x h.base_pos hx
  obtain ⟨L, hh, _⟩ := run_inv P fuel _ hA hA0 ops _ c (fresh_inv k P S N h b h1 h2 e) hr
  obtain ⟨c2, e2, hc2, r2⟩ := run_deallocates P fuel _ hA hA0 as L c hh hn hl
  obtain ⟨c3, e3, _, _, r3⟩ := run_allocates P fuel _ as.reverse L c2 hc2
  rw [List.length_reverse] at e3
  refine ⟨c3, ?_, by rw [r3, r2]⟩
  rw [run_append P fuel _ _ c c2 e2]
  exact e3

/-- Witness for `lifo_discipline`: the capacity-2 scenario.  Allocate twice
(4096 and 4160), a third allocate returns `nullptr`, deallocate 4096, and the
next allocate returns 4096. -/
theorem lifo_discipline_witness :
    ∃ b c c1, make_unique .lockFree x86_64 sizeofMyObject block4096 2 = .ok b ∧
      (Client.fresh b).run x86_64 0 [.allocate, .allocate, .allocate] = .ok c ∧
      c.returned = [4096, 4160, 0] ∧
      c.run x86_64 0 ([4096].map .deallocate ++ List.replicate [4096].length .allocate)
        = .ok c1 ∧
      c1.returned = c.returned ++ [4096].reverse := by
  obtain ⟨c1, hc⟩ :=
    lifo_discipline .lockFree x86_64 sizeofMyObject 2 block4096 0 _ (by decide) (by decide) rfl
      [.allocate, .allocate, .allocate] _ rfl [4096] (by decide) (by decide)
  exact ⟨_, _, c1, rfl, rfl, rfl, hc⟩

/-- C5 (backend equivalence).  For every capacity `N >= 1`, a lock-free pool
and a mutex pool built over blocks with the same base address, and every
sequence of calls: either the sequence breaks the precondition of `deallocate`
at the same call for both, or both runs complete, every `allocate` has returned
the same value in both (the same address, or `nullptr` in both), the clients
hold the same addresses, and the two pools have the same head address and the
same free list. -/
theorem backend_equivalence (P : Platform) (S N : Nat) (hl hm : NewBlock) (fuel : Nat)
    (bl bm : MemoryPoolBase) (h1 : 1 ≤ N) (h2 : N < 2 ^ P.w) (hb : hl.base = hm.base)
    (el : make_unique .lockFree P S hl N = .ok bl)
    (em : make_unique .mutex P S hm N = .ok bm) (ops : List Op) :
    (∃ cl cm, (Client.fresh bl).run P fuel ops = .ok cl ∧
      (Client.fresh bm).run P fuel ops = .ok cm ∧
      cl.returned = cm.returned ∧ cl.live = cm.live ∧
      cl.pool.headPtr = cm.pool.headPtr ∧
      ∃ L, Chain cl.pool.heap.next cl.pool.headPtr L ∧
        Chain cm.pool.heap.next cm.pool.headPtr L) ∨
    ((Client.fresh bl).run P fuel ops = .error .violation ∧
      (Client.fresh bm).run P fuel ops = .error .violation) := by
  obtain ⟨gl, _, hS⟩ := fresh_holds .lockFree P S N hl bl h1 h2 el
  obtain ⟨gm, _, _⟩ := fresh_holds .mutex P S N hm bm h1 h2 em
  rw [← hb] at gm
  have hA := slots_nodup S hS N hl.base
  have hA0 : ∀ x ∈ slots hl.base S N, x ≠ 0 :=
    fun x hx => slots_ne_zero S N hl.base x hl.base_pos hx
  have h0 : Sim P (slots hl.base S N) (Client.fresh bl) (Client.fresh bm) :=
    ⟨_, gl, gm, rfl, rfl⟩
  rcases sim_run P fuel _ hA hA0 ops _ _ h0 with ⟨cl, cm, e1, e2, L, g1, g2, l, r⟩ | hv
  · left
    refine ⟨cl, cm, e1, e2, r, l, ?_, L, g1.1.1, g2.1.1⟩
    have c1 := g1.1.1
    have c2 := g2.1.1
    cases L with
    | nil => exact c1.trans c2.symm
    | cons a L => exact c1.1.trans c2.1.symm
  · exact Or.inr hv

/-- Witness for `backend_equivalence`: capacity 2 on a 64-bit platform, the
calls allocate, allocate, allocate, deallocate(4096), allocate. -/
theorem backend_equivalence_witness :
    ∃ bl bm, make_unique .lockFree x86_64 sizeofMyObject block4096 2 = .ok bl ∧
      make_unique .mutex x86_64 sizeofMyObject block4096 2 = .ok bm ∧
      ((∃ cl cm,
        (Client.fresh bl).run x86_64 0
          [.allocate, .allocate, .allocate, .deallocate 4096, .allocate] = .ok cl ∧
        (Client.fresh bm).run x86_64 0
          [.allocate, .allocate, .allocate, .deallocate 4096, .allocate] = .ok cm ∧
        cl.returned = cm.returned ∧ cl.live = cm.live ∧
        cl.pool.headPtr = cm.pool.headPtr ∧
        ∃ L, Chain cl.pool.heap.next cl.pool.headPtr L ∧
          Chain cm.pool.heap.next cm.pool.headPtr L) ∨
      ((Client.fresh bl).run x86_64 0
          [.allocate, .allocate, .allocate, .deallocate 4096, .allocate] = .error .violation ∧
        (Client.fresh bm).run x86_64 0
          [.allocate, .allocate, .allocate, .deallocate 4096, .allocate] = .error .violation)) :=
  ⟨_, _, rfl, rfl,
    backend_equivalence x86_64 sizeofMyObject 2 block4096 block4096 0 _ _ (by decide)
      (by decide) rfl rfl rfl _⟩

/-- C6, counterexample.  With count 0 no constructor reports a construction
error: on the 64-bit platform neither the mutex nor the lock-free nor the
adaptive constructor throws.  The execution instead leaves defined behaviour:
`count - 1` wraps around and the first iteration of the linking loop writes a
node outside the zero-length block. -/
theorem construct_zero_not_reported :
    MutexMemoryPool.construct x86_64 sizeofMyObject block4096 0 ≠ .error .runtimeError ∧
    MutexMemoryPool.construct x86_64 sizeofMyObject block4096 0
      = .error .undefinedBehaviour ∧
    LockFreeMemoryPool.construct x86_64 sizeofMyObject block4096 0 ≠ .error .runtimeError ∧
    LockFreeMemoryPool.construct x86_64 sizeofMyObject block4096 0
      = .error .undefinedBehaviour ∧
    AdaptiveMemoryPool.construct x86_64 sizeofMyObject block4096 0 ≠ .error .runtimeError := by
  have em : MutexMemoryPool.construct x86_64 sizeofMyObject block4096 0
      = .error .undefinedBehaviour := rfl
  have el : LockFreeMemoryPool.construct x86_64 sizeofMyObject block4096 0
      = .error .undefinedBehaviour := rfl
  refine ⟨?_, em, ?_, el, adaptive_construct_no_throw x86_64 sizeofMyObject 0 block4096⟩
  · rw [em]; simp
  · rw [el]; simp

/-- C6, amended.  No constructor tests `count`: with count 0 the mutex and the
adaptive constructor throw nothing, and the lock-free constructor throws only
its not-lock-free `runtime_error`, exactly when `is_lock_free()` is false (for
a type that passes the `static_assert`).  A count of at least 1 is an unchecked
precondition of construction. -/
theorem construct_zero_unchecked (P : Platform) (S : Nat) (h : NewBlock) :
    MutexMemoryPool.construct P S h 0 ≠ .error .runtimeError ∧
    AdaptiveMemoryPool.construct P S h 0 ≠ .error .runtimeError ∧
    (LockFreeMemoryPool.construct P S h 0 = .error .runtimeError ↔
      P.ptrSize ≤ S ∧ LockFreeMemoryPool.is_lock_free P = false) :=
  ⟨mutex_construct_no_throw P S 0 h, adaptive_construct_no_throw P S 0 h,
    lockFree_construct_throws P S 0 h⟩

/-- C7 (exhaustion changes nothing).  In every pool state whose free list is
empty (the head address is `nullptr`), `allocate()` returns `nullptr` normally
and the state of the pool (head, tag, every word of the arena) is the one
before the call; the same holds through the facade, and the calls that follow
run as they would without the failed call. -/
theorem exhaustion_changes_nothing (P : Platform) (fuel : Nat) (b : MemoryPoolBase)
    (h : b.headPtr = 0) :
    b.allocate P fuel = .ok (0, b) ∧
    AdaptiveMemoryPool.allocate P fuel ⟨b⟩ = .ok (0, ⟨b⟩) ∧
    ∀ (live returned : List Nat) (ops : List Op),
      Client.run P fuel ⟨b, live, returned⟩ (.allocate :: ops)
        = Client.run P fuel ⟨b, live, returned ++ [0]⟩ ops := by
  have e := allocate_empty P fuel b h
  refine ⟨e, by simp [AdaptiveMemoryPool.allocate, e], ?_⟩
  intro live returned ops
  simp [Client.run, Client.step, e]

/-- Witness for `exhaustion_changes_nothing`: a lock-free pool of capacity 1
after one allocation; its head is `(nullptr, 1)`. -/
theorem exhaustion_changes_nothing_witness :
    ∃ b c, make_unique .lockFree x86_64 sizeofMyObject block4096 1 = .ok b ∧
      (Client.fresh b).run x86_64 0 [.allocate] = .ok c ∧
      c.returned = [4096] ∧ c.pool.headPtr = 0 ∧
      c.pool.allocate x86_64 0 = .ok (0, c.pool) := by
  refine ⟨_, _, rfl, rfl, rfl, rfl, ?_⟩
  refine (exhaustion_changes_nothing x86_64 0 _ ?_).1
  rfl

/-- C8 (arena bounds).  For every capacity `N >= 1` and every sequence of calls
that respects the precondition of `deallocate`, every non-null address returned
by `allocate()` is `raw_memory_ + i * sizeof(T)` for some `i < N`; so the slot
lies inside `[raw_memory_, raw_memory_ + sizeof(T) * N)` and its offset is a
multiple of `sizeof(T)`. -/
theorem arena_bounds (k : Backend) (P : Platform) (S N : Nat) (h : NewBlock) (fuel : Nat)
    (b : MemoryPoolBase) (h1 : 1 ≤ N) (h2 : N < 2 ^ P.w)
    (e : make_unique k P S h N = .ok b) (ops : List Op) (c : Client)
    (hr : (Client.fresh b).run P fuel ops = .ok c) (a : Nat) (ha : a ∈ c.returned)
    (hz : a ≠ 0) :
    ∃ i, i < N ∧ a = b.raw_memory_ + i * S ∧ b.raw_memory_ ≤ a ∧
      a + S ≤ b.raw_memory_ + S * N ∧ (a - b.raw_memory_) % S = 0 := by
  obtain ⟨_, _, hS⟩ := fresh_holds k P S N h b h1 h2 e
  have hA := slots_nodup S hS N h.base
  have hA0 : ∀ x ∈ slots h.base S N, x ≠ 0 :=
    fun x hx => slots_ne_zero S N h.base x h.base_pos hx
  obtain ⟨L, _, hret⟩ := run_inv P fuel _ hA hA0 ops _ c (fresh_inv k P S N h b h1 h2 e) hr
  rw [fresh_raw_memory k P S N h b e]
  rcases hret a ha with h0 | hm
  · exact absurd h0 hz
  · rw [mem_slots] at hm
    obtain ⟨i, hi, hai⟩ := hm
    have hle : (i + 1) * S ≤ N * S := Nat.mul_le_mul_right S hi
    rw [Nat.add_mul] at hle
    refine ⟨i, hi, hai, by omega, ?_, ?_⟩
    · rw [Nat.mul_comm S N]; omega
    · rw [hai, Nat.add_sub_cancel_left, Nat.mul_mod_left]

/-- Witness for `arena_bounds`: capacity 2, the address 4160 returned by the
second allocate. -/
theorem arena_bounds_witness :
    ∃ b c, make_unique .mutex x86_64 sizeofMyObject block4096 2 = .ok b ∧
      (Client.fresh b).run x86_64 0 [.allocate, .allocate, .allocate] = .ok c ∧
      4160 ∈ c.returned ∧
      ∃ i, i < 2 ∧ 4160 = b.raw_memory_ + i * sizeofMyObject ∧ b.raw_memory_ ≤ 4160 ∧
        4160 + sizeofMyObject ≤ b.raw_memory_ + sizeofMyObject * 2 ∧
        (4160 - b.raw_memory_) % sizeofMyObject = 0 :=
  ⟨_, _, rfl, rfl, by decide,
    arena_bounds .mutex x86_64 sizeofMyObject 2 block4096 0 _ (by decide) (by decide) rfl
      [.allocate, .allocate, .allocate] _ rfl 4160 (by decide) (by decide)⟩

/-- C9 (backend selection).  For every count, the constructor of
`AdaptiveMemoryPool` never throws the not-lock-free `runtime_error`; the pool
it owns is a `LockFreeMemoryPool` exactly when `is_lock_free()` is true and a
`MutexMemoryPool` exactly when it is false; `allocate` and `deallocate` on the
facade return what the owned pool returns, and the owned pool stays of the same
class. -/
theorem adaptive_selection (P : Platform) (S N : Nat) (h : NewBlock) :
    AdaptiveMemoryPool.construct P S h N ≠ .error .runtimeError ∧
    (∀ a, AdaptiveMemoryPool.construct P S h N = .ok a →
      (a.pool_.backend = .lockFree ↔ LockFreeMemoryPool.is_lock_free P = true) ∧
      (a.pool_.backend = .mutex ↔ LockFreeMemoryPool.is_lock_free P = false)) ∧
    (∀ (a : AdaptiveMemoryPool) (fuel : Nat),
      (∀ r a1, a.allocate P fuel = .ok (r, a1) ↔ a.pool_.allocate P fuel = .ok (r, a1.pool_)) ∧
      (∀ f, a.allocate P fuel = .error f ↔ a.pool_.allocate P fuel = .error f) ∧
      (∀ ptr a1, a.deallocate P fuel ptr = .ok a1 ↔
        a.pool_.deallocate P fuel ptr = .ok a1.pool_) ∧
      (∀ ptr f, a.deallocate P fuel ptr = .error f ↔
        a.pool_.deallocate P fuel ptr = .error f) ∧
      (∀ r a1, a.allocate P fuel = .ok (r, a1) → a1.pool_.backend = a.pool_.backend) ∧
      (∀ ptr a1, a.deallocate P fuel ptr = .ok a1 → a1.pool_.backend = a.pool_.backend)) := by
  refine ⟨adaptive_construct_no_throw P S N h, ?_, ?_⟩
  · intro a e
    have hb := make_unique_backend _ P S N h _ (adaptive_construct_ok P S N h a e)
    rw [hb]
    cases LockFreeMemoryPool.is_lock_free P <;> simp
  · intro a fuel
    have A1 : ∀ r a1, a.allocate P fuel = .ok (r, a1) ↔
        a.pool_.allocate P fuel = .ok (r, a1.pool_) := by
      intro r a1
      simp only [AdaptiveMemoryPool.allocate]
      cases hp : a.pool_.allocate P fuel with
      | error f => simp
      | ok x =>
        obtain ⟨r0, b0⟩ := x
        cases a1 with
        | mk b1 => simp
    have D1 : ∀ ptr a1, a.deallocate P fuel ptr = .ok a1 ↔
        a.pool_.deallocate P fuel ptr = .ok a1.pool_ := by
      intro ptr a1
      simp only [AdaptiveMemoryPool.deallocate]
      cases hp : a.pool_.deallocate P fuel ptr with
      | error f => simp
      | ok b0 =>
        cases a1 with
        | mk b1 => simp
    refine ⟨A1, ?_, D1, ?_, ?_, ?_⟩
    · intro f
      simp only [AdaptiveMemoryPool.allocate]
      cases hp : a.pool_.allocate P fuel with
      | error g => simp
      | ok x => simp
    · intro ptr f
      simp only [AdaptiveMemoryPool.deallocate]
      cases hp : a.pool_.deallocate P fuel ptr with
      | error g => simp
      | ok x => simp
    · intro r a1 e
      exact allocate_backend P fuel _ _ r ((A1 r a1).mp e)
    · intro ptr a1 e
      exact deallocate_backend P fuel _ _ ptr ((D1 ptr a1).mp e)

/-- Witness for `adaptive_selection`: on the platform without a lock-free
`TaggedPointer` the facade is constructed and owns a `MutexMemoryPool`; on the
64-bit platform it owns a `LockFreeMemoryPool`. -/
theorem adaptive_selection_witness :
    (∃ a, AdaptiveMemoryPool.construct i386 sizeofMyObject block4096 3 = .ok a ∧
      a.pool_.backend = .mutex) ∧
    (∃ a, AdaptiveMemoryPool.construct x86_64 sizeofMyObject block4096 3 = .ok a ∧
      a.pool_.backend = .lockFree) :=
  ⟨⟨_, rfl, (((adaptive_selection i386 sizeofMyObject 3 block4096).2.1 _ rfl).2).mpr rfl⟩,
   ⟨_, rfl, (((adaptive_selection x86_64 sizeofMyObject 3 block4096).2.1 _ rfl).1).mpr rfl⟩⟩

/-- C10 (the lock-free constructor reports an unsupported platform at once).
For a type `T` that passes the `static_assert`, the constructor of
`LockFreeMemoryPool` throws its `runtime_error` if and only if `is_lock_free()`
is false; when it is false the error is the outcome for every block and every
count, also those for which linking the slots would leave the block, so it
comes before the arena is allocated or linked; and `allocate()` never throws
it, in any state of the pool. -/
theorem lockfree_reports_eagerly (P : Platform) (S N : Nat) (h : NewBlock)
    (hs : P.ptrSize ≤ S) :
    (LockFreeMemoryPool.construct P S h N = .error .runtimeError ↔
      LockFreeMemoryPool.is_lock_free P = false) ∧
    (LockFreeMemoryPool.is_lock_free P = false →
      ∀ (h1 : NewBlock) (count : Nat),
        LockFreeMemoryPool.construct P S h1 count = .error .runtimeError) ∧
    (∀ (fuel : Nat) (p : LockFreeMemoryPool),
      p.allocate P fuel ≠ .error .runtimeError) := by
  refine ⟨?_, ?_, ?_⟩
  · rw [lockFree_construct_throws]
    simp [hs]
  · intro hl h1 count
    rw [lockFree_construct_throws]
    exact ⟨hs, hl⟩
  · intro fuel p e
    exact lockFree_allocateLoop_fault P _ p _ e rfl

/-- Witness for `lockfree_reports_eagerly`: on the 32-bit platform the
constructor throws, also for count 0; on the 64-bit platform it does not. -/
theorem lockfree_reports_eagerly_witness :
    LockFreeMemoryPool.construct i386 sizeofMyObject block4096 0 = .error .runtimeError ∧
    (LockFreeMemoryPool.construct x86_64 sizeofMyObject block4096 3 = .error .runtimeError ↔
      LockFreeMemoryPool.is_lock_free x86_64 = false) :=
  ⟨((lockfree_reports_eagerly i386 sizeofMyObject 0 block4096 (by decide)).1).mpr rfl,
   (lockfree_reports_eagerly x86_64 sizeofMyObject 3 block4096 (by decide)).1⟩

/-! ## Construction, in detail -/

theorem make_unique_inv (k : Backend) (P : Platform) (S N : Nat) (h : NewBlock)
    (b : MemoryPoolBase) (e : make_unique k P S h N = .ok b) :
    P.ptrSize ≤ S ∧ b.headPtr = h.base ∧ b.raw_memory_ = h.base ∧ b.tag = 0 ∧
      b.backend = k ∧
      ∃ cur m, linkLoop P S (loopBound P N) h.base (h.alloc (arenaBytes P S N)) = .ok (cur, m) ∧
        m.store P cur 0 = .ok b.heap := by
  cases k with
  | lockFree =>
    simp only [make_unique, LockFreeMemoryPool.construct] at e
    by_cases hs : S < P.ptrSize
    · simp [hs] at e
    · by_cases hl : LockFreeMemoryPool.is_lock_free P = true
      · simp only [hs, if_false, hl, Bool.not_true] at e
        cases e1 : linkLoop P S (loopBound P N) (h.alloc (arenaBytes P S N)).base
            (h.alloc (arenaBytes P S N)) with
        | error f => simp [e1] at e
        | ok r =>
          obtain ⟨cur, m⟩ := r
          simp only [e1] at e
          cases e2 : m.store P cur 0 with
          | error f => simp [e2] at e
          | ok m2 =>
            simp only [e2, Bool.false_eq_true, if_false, Except.ok.injEq] at e
            subst e
            exact ⟨by omega, rfl, rfl, rfl, rfl, cur, m, e1, e2⟩
      · simp [hs, hl] at e
  | mutex =>
    simp only [make_unique, MutexMemoryPool.construct] at e
    by_cases hs : S < P.ptrSize
    · simp [hs] at e
    · simp only [hs, if_false] at e
      cases e1 : linkLoop P S (loopBound P N) (h.alloc (arenaBytes P S N)).base
          (h.alloc (arenaBytes P S N)) with
      | error f => simp [e1] at e
      | ok r =>
        obtain ⟨cur, m⟩ := r
        simp only [e1] at e
        cases e2 : m.store P cur 0 with
        | error f => simp [e2] at e
        | ok m2 =>
          simp only [e2, Except.ok.injEq] at e
          subst e
          exact ⟨by omega, rfl, rfl, rfl, rfl, cur, m, e1, e2⟩

theorem fresh_geometry (k : Backend) (P : Platform) (S N : Nat) (h : NewBlock)
    (b : MemoryPoolBase) (e : make_unique k P S h N = .ok b) :
    b.heap.base = h.base ∧ b.heap.size = arenaBytes P S N := by
  obtain ⟨hs, _, _, _, _, cur, m, e1, e2⟩ := make_unique_inv k P S N h b e
  have hS : 0 < S := lt_of_lt_of_le P.ptr_pos hs
  obtain ⟨_, l2, l3, _⟩ := linkLoop_spec P S hS _ h.base _ cur m e1
  obtain ⟨_, s2, s3, _⟩ := store_ok P m b.heap cur 0 e2
  exact ⟨by rw [s2, l2]; rfl, by rw [s3, l3]; rfl⟩

theorem chain_slots_next (next : Nat → Nat) (S : Nat) :
    ∀ (n cur : Nat), Chain next cur (slots cur S (n + 1)) →
      (∀ i, i < n → next (cur + i * S) = cur + (i + 1) * S) ∧ next (cur + n * S) = 0
  | 0, cur, hc => by
    obtain ⟨_, _, h3⟩ := hc
    simp only [slots, Chain] at h3
    exact ⟨fun i hi => absurd hi (Nat.not_lt_zero i), by simpa using h3⟩
  | n + 1, cur, hc => by
    obtain ⟨_, _, h3⟩ := hc
    have hn : next cur = cur + S := by
      rw [slots] at h3
      exact h3.1
    rw [hn] at h3
    obtain ⟨i1, i2⟩ := chain_slots_next next S n (cur + S) h3
    constructor
    · intro i hi
      cases i with
      | zero => simpa using hn
      | succ j =>
        have := i1 j (by omega)
        have e : cur + (j + 1) * S = cur + S + j * S := by ring
        rw [e, this]; ring
    · have e : cur + (n + 1) * S = cur + S + n * S := by ring
      rw [e]; exact i2

theorem slots_eq_map (S : Nat) : ∀ (n base : Nat),
    slots base S n = (List.range n).map (fun i => base + i * S)
  | 0, _ => rfl
  | n + 1, base => by
    rw [slots, slots_eq_map S n, List.range_succ_eq_map, List.map_cons, List.map_map]
    simp only [Nat.zero_mul, Nat.add_zero, List.cons.injEq, true_and]
    apply List.map_congr_left
    intro i _
    simp only [Function.comp, Nat.succ_eq_add_one]
    ring

/-! ## The claims on construction -/

/-- C11, counterexample.  An object smaller than a pointer does not get a
pointer-sized slot: for `sizeof(T) = 4` on the 64-bit platform, where
`max(4, sizeof(Node)) = 8`, both pool classes are rejected by the
`static_assert` and no pool is constructed. -/
theorem small_object_rejected :
    max 4 x86_64.ptrSize = 8 ∧
    make_unique .mutex x86_64 4 block4096 3 = .error .staticAssert ∧
    make_unique .lockFree x86_64 4 block4096 3 = .error .staticAssert :=
  ⟨rfl, rfl, rfl⟩

/-- C11, amended.  For every object size `S` of at least the size of one `next`
pointer and every count `N >= 1` whose product `S * N` fits in `size_t` (and,
for the lock-free class, when `is_lock_free()` is true), construction succeeds
with slot size `sizeof(T) = S = max(S, header_size)`: the arena is one block of
exactly `S * N` bytes starting at `raw_memory_`, and the slots threaded into the
free list are `raw_memory_ + i * S` for `i < N`, consecutive slots `S` bytes
apart.  A type smaller than a pointer is rejected by the `static_assert`. -/
theorem slot_size_is_sizeof (k : Backend) (P : Platform) (S N : Nat) (h : NewBlock)
    (hs : P.ptrSize ≤ S) (h1 : 1 ≤ N) (hfit : S * N < 2 ^ P.w)
    (hk : k = .lockFree → LockFreeMemoryPool.is_lock_free P = true) :
    (∃ b, make_unique k P S h N = .ok b ∧ max S P.ptrSize = S ∧
      b.raw_memory_ = h.base ∧ b.heap.base = b.raw_memory_ ∧ b.heap.size = S * N ∧
      Chain b.heap.next b.headPtr
        ((List.range N).map (fun i => b.raw_memory_ + i * S))) ∧
    (∀ (k2 : Backend) (S2 N2 : Nat) (h2 : NewBlock), S2 < P.ptrSize →
      make_unique k2 P S2 h2 N2 = .error .staticAssert) := by
  constructor
  · obtain ⟨b, e⟩ := make_unique_ok k P S N h hs h1 hfit hk
    have hS : 0 < S := lt_of_lt_of_le P.ptr_pos hs
    have hN : N < 2 ^ P.w := lt_of_le_of_lt (Nat.le_mul_of_pos_left N hS) hfit
    obtain ⟨g1, g2⟩ := fresh_geometry k P S N h b e
    obtain ⟨hh, _, _⟩ := fresh_holds k P S N h b h1 hN e
    have hr := fresh_raw_memory k P S N h b e
    refine ⟨b, e, Nat.max_eq_left hs, hr, by rw [g1, hr], ?_, ?_⟩
    · rw [g2]; exact Nat.mod_eq_of_lt hfit
    · rw [hr, ← slots_eq_map]
      exact hh.1.1
  · intro k2 S2 N2 h2 hlt
    cases k2 with
    | lockFree => simp [make_unique, LockFreeMemoryPool.construct, hlt]
    | mutex => simp [make_unique, MutexMemoryPool.construct, hlt]

/-- Witness for `slot_size_is_sizeof`: three objects of 64 bytes on the 64-bit
platform. -/
theorem slot_size_is_sizeof_witness :
    ∃ b, make_unique .lockFree x86_64 sizeofMyObject block4096 3 = .ok b ∧
      max sizeofMyObject x86_64.ptrSize = sizeofMyObject ∧
      b.raw_memory_ = block4096.base ∧ b.heap.base = b.raw_memory_ ∧
      b.heap.size = sizeofMyObject * 3 ∧
      Chain b.heap.next b.headPtr
        ((List.range 3).map (fun i => b.raw_memory_ + i * sizeofMyObject)) :=
  (slot_size_is_sizeof .lockFree x86_64 sizeofMyObject 3 block4096 (by decide) (by decide)
    (by decide) (fun _ => rfl)).1

/-- C12, counterexample.  On the 64-bit platform `sizeof(T) = 64` and
`count = 2^58 + 1` give a product that does not fit in `size_t`; the size
requested from `new` is the wrapped-around 64 bytes, and no constructor
reports a construction error.  (The linking loop then leaves the 64-byte
block at its second node.) -/
theorem overflow_not_reported :
    2 ^ x86_64.w ≤ sizeofMyObject * (2 ^ 58 + 1) ∧
    arenaBytes x86_64 sizeofMyObject (2 ^ 58 + 1) = 64 ∧
    MutexMemoryPool.construct x86_64 sizeofMyObject block4096 (2 ^ 58 + 1)
      ≠ .error .runtimeError ∧
    MutexMemoryPool.construct x86_64 sizeofMyObject block4096 (2 ^ 58 + 1)
      = .error .undefinedBehaviour ∧
    LockFreeMemoryPool.construct x86_64 sizeofMyObject block4096 (2 ^ 58 + 1)
      ≠ .error .runtimeError ∧
    LockFreeMemoryPool.construct x86_64 sizeofMyObject block4096 (2 ^ 58 + 1)
      = .error .undefinedBehaviour ∧
    AdaptiveMemoryPool.construct x86_64 sizeofMyObject block4096 (2 ^ 58 + 1)
      ≠ .error .runtimeError := by
  have em : MutexMemoryPool.construct x86_64 sizeofMyObject block4096 (2 ^ 58 + 1)
      = .error .undefinedBehaviour := rfl
  have el : LockFreeMemoryPool.construct x86_64 sizeofMyObject block4096 (2 ^ 58 + 1)
      = .error .undefinedBehaviour := rfl
  refine ⟨by decide, by decide, ?_, em, ?_, el,
    adaptive_construct_no_throw x86_64 sizeofMyObject _ block4096⟩
  · rw [em]; simp
  · rw [el]; simp

/-- C12, amended.  No constructor checks the byte-size computation: the product
`sizeof(T) * count` is evaluated in `size_t`, so when it does not fit the size
requested from `new` is the wrapped-around one, smaller than the product, and
no construction error is reported on account of it (the mutex and the adaptive
constructor throw nothing, the lock-free constructor throws only its
not-lock-free `runtime_error`).  That the product fits is an unchecked
precondition of construction. -/
theorem size_overflow_unchecked (P : Platform) (S N : Nat) (h : NewBlock)
    (hov : 2 ^ P.w ≤ S * N) :
    arenaBytes P S N = (S * N) % 2 ^ P.w ∧ arenaBytes P S N < S * N ∧
    (∀ k b, make_unique k P S h N = .ok b → b.heap.size = arenaBytes P S N) ∧
    MutexMemoryPool.construct P S h N ≠ .error .runtimeError ∧
    AdaptiveMemoryPool.construct P S h N ≠ .error .runtimeError ∧
    (LockFreeMemoryPool.construct P S h N = .error .runtimeError ↔
      P.ptrSize ≤ S ∧ LockFreeMemoryPool.is_lock_free P = false) := by
  have hlt : arenaBytes P S N < 2 ^ P.w := Nat.mod_lt _ (Nat.two_pow_pos P.w)
  exact ⟨rfl, lt_of_lt_of_le hlt hov, fun k b e => (fresh_geometry k P S N h b e).2,
    mutex_construct_no_throw P S N h, adaptive_construct_no_throw P S N h,
    lockFree_construct_throws P S N h⟩

/-- Witness for `size_overflow_unchecked`: `sizeof(T) = 64`, `count = 2^58 + 1`
on the 64-bit platform. -/
theorem size_overflow_unchecked_witness :
    arenaBytes x86_64 sizeofMyObject (2 ^ 58 + 1) < sizeofMyObject * (2 ^ 58 + 1) ∧
    MutexMemoryPool.construct x86_64 sizeofMyObject block4096 (2 ^ 58 + 1)
      ≠ .error .runtimeError :=
  ⟨(size_overflow_unchecked x86_64 sizeofMyObject (2 ^ 58 + 1) block4096 (by decide)).2.1,
   (size_overflow_unchecked x86_64 sizeofMyObject (2 ^ 58 + 1) block4096
      (by decide)).2.2.2.1⟩

/-- C14 (initial free list).  For every capacity `N >= 1`, right after
construction the `next` link of slot `i` is the address of slot `i + 1` for
every `i < N - 1`, the `next` link of slot `N - 1` is `nullptr`, and the head is
slot 0 (for the lock-free pool the pair of slot 0 and tag 0); so the free list
from the head is slot 0, slot 1, ..., slot `N - 1`. -/
theorem initial_free_list (k : Backend) (P : Platform) (S N : Nat) (h : NewBlock)
    (b : MemoryPoolBase) (h1 : 1 ≤ N) (h2 : N < 2 ^ P.w)
    (e : make_unique k P S h N = .ok b) :
    b.raw_memory_ = h.base ∧ b.headPtr = b.raw_memory_ ∧
    (∀ p, b = .lockFree p → p.head_ = ⟨b.raw_memory_, 0⟩) ∧
    (∀ i, i + 1 < N → b.heap.next (b.raw_memory_ + i * S) = b.raw_memory_ + (i + 1) * S) ∧
    b.heap.next (b.raw_memory_ + (N - 1) * S) = 0 ∧
    Chain b.heap.next b.headPtr ((List.range N).map (fun i => b.raw_memory_ + i * S)) := by
  obtain ⟨_, i2, i3, i4, _, _⟩ := make_unique_inv k P S N h b e
  obtain ⟨hh, _, _⟩ := fresh_holds k P S N h b h1 h2 e
  have hc : Chain b.heap.next h.base (slots h.base S (N - 1 + 1)) := by
    have hN : N - 1 + 1 = N := by omega
    have hc0 : Chain b.heap.next b.headPtr (slots h.base S N) := hh.1.1
    rw [i2] at hc0
    rw [hN]
    exact hc0
  obtain ⟨n1, n2⟩ := chain_slots_next b.heap.next S (N - 1) h.base hc
  rw [i3]
  refine ⟨rfl, i2, ?_, fun i hi => n1 i (by omega), n2, ?_⟩
  · intro p hp
    subst hp
    simp only [MemoryPoolBase.headPtr, MemoryPoolBase.tag] at i2 i4
    cases hq : p.head_ with
    | mk ptr tag =>
      rw [hq] at i2 i4
      simp only at i2 i4
      rw [i2, i4]
  · rw [← slots_eq_map]
    exact hh.1.1

/-- Witness for `initial_free_list`: a lock-free pool of capacity 3 whose
block starts at 4096. -/
theorem initial_free_list_witness :
    ∃ b, make_unique .lockFree x86_64 sizeofMyObject block4096 3 = .ok b ∧
      b.raw_memory_ = 4096 ∧ b.headPtr = b.raw_memory_ ∧
      (∀ p, b = .lockFree p → p.head_ = ⟨b.raw_memory_, 0⟩) ∧
      (∀ i, i + 1 < 3 → b.heap.next (b.raw_memory_ + i * sizeofMyObject)
        = b.raw_memory_ + (i + 1) * sizeofMyObject) ∧
      b.heap.next (b.raw_memory_ + (3 - 1) * sizeofMyObject) = 0 ∧
      Chain b.heap.next b.headPtr
        ((List.range 3).map (fun i => b.raw_memory_ + i * sizeofMyObject)) :=
  ⟨_, rfl,
    initial_free_list .lockFree x86_64 sizeofMyObject 3 block4096 _ (by decide) (by decide)
      rfl⟩

/-- C15 (free / in-use partition).  For every capacity `N >= 1`, in every state
reached from a fresh pool by calls that respect the precondition of
`deallocate`, the chain of `next` links from the head is a finite list `L`
ending in `nullptr`, with no slot twice, and contains exactly the arena slots
the client does not hold; no slot is both in the free list and held, and the
length of the free list plus the number of held slots is `N`. -/
theorem partition_invariant (k : Backend) (P : Platform) (S N : Nat) (h : NewBlock)
    (fuel : Nat) (b : MemoryPoolBase) (h1 : 1 ≤ N) (h2 : N < 2 ^ P.w)
    (e : make_unique k P S h N = .ok b) (ops : List Op) (c : Client)
    (hr : (Client.fresh b).run P fuel ops = .ok c) :
    ∃ L, Chain c.pool.heap.next c.pool.headPtr L ∧ L.Nodup ∧ c.live.Nodup ∧
      (∀ a, a ∈ L ↔
        (a ∈ (List.range N).map (fun i => b.raw_memory_ + i * S) ∧ a ∉ c.live)) ∧
      (∀ a ∈ c.live, a ∈ (List.range N).map (fun i => b.raw_memory_ + i * S)) ∧
      (∀ a, ¬ (a ∈ L ∧ a ∈ c.live)) ∧
      L.length + c.live.length = N := by
  obtain ⟨_, _, hS⟩ := fresh_holds k P S N h b h1 h2 e
  have hA := slots_nodup S hS N h.base
  have hA0 : ∀ x ∈ slots h.base S N, x ≠ 0 :=
    fun x hx => slots_ne_zero S N h.base x h.base_pos hx
  obtain ⟨L, hh, _⟩ := run_inv P fuel _ hA hA0 ops _ c (fresh_inv k P S N h b h1 h2 e) hr
  rw [fresh_raw_memory k P S N h b e, ← slots_eq_map]
  have hnd : (L ++ c.live).Nodup := hh.2.nodup_iff.mpr hA
  obtain ⟨n1, n2, n3⟩ := List.nodup_append.mp hnd
  refine ⟨L, hh.1.1, n1, n2, ?_, ?_, ?_, ?_⟩
  · intro a
    constructor
    · intro ha
      exact ⟨hh.2.subset (List.mem_append_left _ ha), fun hl => n3 ha hl⟩
    · rintro ⟨ha, hl⟩
      rcases List.mem_append.mp (hh.2.mem_iff.mpr ha) with h3 | h3
      · exact h3
      · exact absurd h3 hl
  · intro a ha
    exact hh.2.subset (List.mem_append_right _ ha)
  · rintro a ⟨ha, hl⟩
    exact n3 ha hl
  · rw [← List.length_append, hh.2.length_eq, slots_length]

/-- Witness for `partition_invariant`: capacity 3, after allocate, allocate,
deallocate(4096). -/
theorem partition_invariant_witness :
    ∃ b c, make_unique .mutex x86_64 sizeofMyObject block4096 3 = .ok b ∧
      (Client.fresh b).run x86_64 0 [.allocate, .allocate, .deallocate 4096] = .ok c ∧
      c.live = [4160] ∧
      ∃ L, Chain c.pool.heap.next c.pool.headPtr L ∧ L.Nodup ∧ c.live.Nodup ∧
        (∀ a, a ∈ L ↔
          (a ∈ (List.range 3).map (fun i => b.raw_memory_ + i * sizeofMyObject) ∧
            a ∉ c.live)) ∧
        (∀ a ∈ c.live, a ∈ (List.range 3).map (fun i => b.raw_memory_ + i * sizeofMyObject)) ∧
        (∀ a, ¬ (a ∈ L ∧ a ∈ c.live)) ∧
        L.length + c.live.length = 3 :=
  ⟨_, _, rfl, rfl, rfl,
    partition_invariant .mutex x86_64 sizeofMyObject 3 block4096 0 _ (by decide) (by decide)
      rfl [.allocate, .allocate, .deallocate 4096] _ rfl⟩

/-! ## Effects of one call, in detail -/

theorem lockFree_allocate_cases (P : Platform) (fuel : Nat) (p p1 : LockFreeMemoryPool)
    (a : Nat) (e : p.allocate P fuel = .ok (a, p1)) :
    (a = 0 ∧ p.head_.ptr = 0 ∧ p1 = p) ∨
    (a ≠ 0 ∧ a = p.head_.ptr ∧
      p1 = { p with head_ := ⟨p.heap.next a, (p.head_.tag + 1) % 2 ^ P.w⟩ }) := by
  simp only [LockFreeMemoryPool.allocate, allocateLoop_succ] at e
  by_cases h0 : p.head_.ptr = 0
  · simp only [h0, if_true, Except.ok.injEq, Prod.mk.injEq] at e
    exact Or.inl ⟨e.1.symm, h0, e.2.symm⟩
  · simp only [h0, if_false] at e
    cases hl : p.heap.load P p.head_.ptr with
    | error f => simp [hl] at e
    | ok nxt =>
      simp only [hl, Except.ok.injEq, Prod.mk.injEq] at e
      have hn : nxt = p.heap.next p.head_.ptr := by
        simp only [Memory.load] at hl
        split at hl
        · simp only [Except.ok.injEq] at hl
          exact hl.symm
        · cases hl
      right
      refine ⟨by rw [← e.1]; exact h0, e.1.symm, ?_⟩
      rw [← e.2, ← e.1, hn]

theorem lockFree_deallocate_ok (P : Platform) (fuel : Nat) (p p1 : LockFreeMemoryPool)
    (ptr : Nat) (e : p.deallocate P fuel ptr = .ok p1) :
    p.heap.inBounds P ptr ∧
    p1 = { p with heap := { p.heap with next := Function.update p.heap.next ptr p.head_.ptr },
                  head_ := ⟨ptr, (p.head_.tag + 1) % 2 ^ P.w⟩ } := by
  simp only [LockFreeMemoryPool.deallocate, deallocateLoop_succ] at e
  cases hs : p.heap.store P ptr p.head_.ptr with
  | error f => simp [hs] at e
  | ok m =>
    simp only [hs, Except.ok.injEq] at e
    obtain ⟨s1, _, _, _⟩ := store_ok P p.heap m ptr _ hs
    refine ⟨s1, ?_⟩
    rw [← e]
    simp only [Memory.store, s1, if_true, Except.ok.injEq] at hs
    rw [← hs]

theorem mutex_allocate_cases (P : Platform) (p p1 : MutexMemoryPool)
    (a : Nat) (e : p.allocate P = .ok (a, p1)) :
    (a = 0 ∧ p.head_ = 0 ∧ p1 = p) ∨
    (a ≠ 0 ∧ a = p.head_ ∧ p1 = { p with head_ := p.heap.next a }) := by
  simp only [MutexMemoryPool.allocate] at e
  by_cases h0 : p.head_ = 0
  · simp only [h0, if_true, Except.ok.injEq, Prod.mk.injEq] at e
    exact Or.inl ⟨e.1.symm, h0, e.2.symm⟩
  · simp only [h0, if_false] at e
    cases hl : p.heap.load P p.head_ with
    | error f => simp [hl] at e
    | ok nxt =>
      simp only [hl, Except.ok.injEq, Prod.mk.injEq] at e
      have hn : nxt = p.heap.next p.head_ := by
        simp only [Memory.load] at hl
        split at hl
        · simp only [Except.ok.injEq] at hl
          exact hl.symm
        · cases hl
      right
      refine ⟨by rw [← e.1]; exact h0, e.1.symm, ?_⟩
      rw [← e.2, ← e.1, hn]

theorem mutex_deallocate_ok (P : Platform) (p p1 : MutexMemoryPool)
    (ptr : Nat) (e : p.deallocate P ptr = .ok p1) :
    p.heap.inBounds P ptr ∧
    p1 = { p with heap := { p.heap with next := Function.update p.heap.next ptr p.head_ },
                  head_ := ptr } := by
  simp only [MutexMemoryPool.deallocate] at e
  cases hs : p.heap.store P ptr p.head_ with
  | error f => simp [hs] at e
  | ok m =>
    simp only [hs, Except.ok.injEq] at e
    obtain ⟨s1, _, _, _⟩ := store_ok P p.heap m ptr _ hs
    refine ⟨s1, ?_⟩
    rw [← e]
    simp only [Memory.store, s1, if_true, Except.ok.injEq] at hs
    rw [← hs]

theorem base_allocate_inv (P : Platform) (fuel : Nat) (b b1 : MemoryPoolBase) (a : Nat)
    (e : b.allocate P fuel = .ok (a, b1)) :
    b1.heap = b.heap ∧ b1.raw_memory_ = b.raw_memory_ ∧
      ((a = 0 ∧ b.headPtr = 0 ∧ b1 = b) ∨
       (a ≠ 0 ∧ a = b.headPtr ∧ b1.headPtr = b.heap.next a ∧
         (b.backend = .lockFree → b1.tag = (b.tag + 1) % 2 ^ P.w))) := by
  cases b with
  | lockFree p =>
    simp only [MemoryPoolBase.allocate] at e
    cases hp : p.allocate P fuel with
    | error f => simp [hp] at e
    | ok x =>
      obtain ⟨a0, p1⟩ := x
      simp only [hp, Except.ok.injEq, Prod.mk.injEq] at e
      obtain ⟨ea, eb⟩ := e
      subst ea; subst eb
      rcases lockFree_allocate_cases P fuel p p1 a0 hp with ⟨h1, h2, h3⟩ | ⟨h1, h2, h3⟩
      · subst h3
        exact ⟨rfl, rfl, Or.inl ⟨h1, h2, rfl⟩⟩
      · subst h3
        exact ⟨rfl, rfl, Or.inr ⟨h1, h2, rfl, fun _ => rfl⟩⟩
  | mutex p =>
    simp only [MemoryPoolBase.allocate] at e
    cases hp : p.allocate P with
    | error f => simp [hp] at e
    | ok x =>
      obtain ⟨a0, p1⟩ := x
      simp only [hp, Except.ok.injEq, Prod.mk.injEq] at e
      obtain ⟨ea, eb⟩ := e
      subst ea; subst eb
      rcases mutex_allocate_cases P p p1 a0 hp with ⟨h1, h2, h3⟩ | ⟨h1, h2, h3⟩
      · subst h3
        exact ⟨rfl, rfl, Or.inl ⟨h1, h2, rfl⟩⟩
      · subst h3
        refine ⟨rfl, rfl, Or.inr ⟨h1, h2, rfl, ?_⟩⟩
        intro hb
        simp [MemoryPoolBase.backend] at hb

theorem base_deallocate_inv (P : Platform) (fuel : Nat) (b b1 : MemoryPoolBase) (ptr : Nat)
    (e : b.deallocate P fuel ptr = .ok b1) :
    b.heap.inBounds P ptr ∧ b1.headPtr = ptr ∧
      b1.heap.next = Function.update b.heap.next ptr b.headPtr ∧
      b1.heap.base = b.heap.base ∧ b1.heap.size = b.heap.size ∧
      b1.raw_memory_ = b.raw_memory_ ∧
      (b.backend = .lockFree → b1.tag = (b.tag + 1) % 2 ^ P.w) := by
  cases b with
  | lockFree p =>
    simp only [MemoryPoolBase.deallocate] at e
    cases hp : p.deallocate P fuel ptr with
    | error f => simp [hp] at e
    | ok p1 =>
      simp only [hp, Except.ok.injEq] at e
      subst e
      obtain ⟨h1, h2⟩ := lockFree_deallocate_ok P fuel p p1 ptr hp
      subst h2
      exact ⟨h1, rfl, rfl, rfl, rfl, rfl, fun _ => rfl⟩
  | mutex p =>
    simp only [MemoryPoolBase.deallocate] at e
    cases hp : p.deallocate P ptr with
    | error f => simp [hp] at e
    | ok p1 =>
      simp only [hp, Except.ok.injEq] at e
      subst e
      obtain ⟨h1, h2⟩ := mutex_deallocate_ok P p p1 ptr hp
      subst h2
      refine ⟨h1, rfl, rfl, rfl, rfl, rfl, ?_⟩
      intro hb
      simp [MemoryPoolBase.backend] at hb

/-! ## The tag of the lock-free head -/

theorem step_tag (P : Platform) (fuel : Nat) (c c1 : Client) (op : Op)
    (hb : c.pool.backend = .lockFree) (ht : c.pool.tag < 2 ^ P.w)
    (e : c.step P fuel op = .ok c1) :
    c1.pool.backend = .lockFree ∧
      c1.pool.tag = (c.pool.tag + (if c.succeeds P fuel op then 1 else 0)) % 2 ^ P.w := by
  cases op with
  | allocate =>
    simp only [Client.step] at e
    cases ha : c.pool.allocate P fuel with
    | error f => simp [ha] at e
    | ok x =>
      obtain ⟨a, b1⟩ := x
      simp only [ha, Except.ok.injEq] at e
      subst e
      refine ⟨by rw [allocate_backend P fuel _ _ a ha]; exact hb, ?_⟩
      obtain ⟨_, _, hc⟩ := base_allocate_inv P fuel c.pool b1 a ha
      simp only [Client.succeeds, ha]
      rcases hc with ⟨h1, _, h3⟩ | ⟨h1, _, _, h4⟩
      · subst h3
        simp [h1, Nat.mod_eq_of_lt ht]
      · simp [h1, h4 hb]
  | deallocate ptr =>
    have e0 := e
    simp only [Client.step] at e
    by_cases hp : ptr ∈ c.live
    · simp only [hp, if_true] at e
      cases hd : c.pool.deallocate P fuel ptr with
      | error f => simp [hd] at e
      | ok b1 =>
        simp only [hd, Except.ok.injEq] at e
        subst e
        refine ⟨by rw [deallocate_backend P fuel _ _ ptr hd]; exact hb, ?_⟩
        obtain ⟨_, _, _, _, _, _, h7⟩ := base_deallocate_inv P fuel c.pool b1 ptr hd
        simp only [Client.succeeds, e0]
        simp [h7 hb]
    · simp [hp] at e

theorem run_tag (P : Platform) (fuel : Nat) :
    ∀ (ops : List Op) (c c1 : Client), c.pool.backend = .lockFree →
      c.pool.tag < 2 ^ P.w → c.run P fuel ops = .ok c1 →
      c1.pool.backend = .lockFree ∧ c1.pool.tag < 2 ^ P.w ∧
        c1.pool.tag = (c.pool.tag + c.successes P fuel ops) % 2 ^ P.w
  | [], c, c1, hb, ht, e => by
    simp only [Client.run, Except.ok.injEq] at e
    subst e
    exact ⟨hb, ht, by simp [Client.successes, Nat.mod_eq_of_lt ht]⟩
  | op :: ops, c, c1, hb, ht, e => by
    simp only [Client.run] at e
    cases hs : c.step P fuel op with
    | error x => simp [hs] at e
    | ok c2 =>
      simp only [hs] at e
      obtain ⟨b2, t2⟩ := step_tag P fuel c c2 op hb ht hs
      have hlt : c2.pool.tag < 2 ^ P.w := by
        rw [t2]; exact Nat.mod_lt _ (Nat.two_pow_pos P.w)
      obtain ⟨b3, l3, t3⟩ := run_tag P fuel ops c2 c1 b2 hlt e
      refine ⟨b3, l3, ?_⟩
      rw [t3, t2, Nat.mod_add_mod]
      simp only [Client.successes, hs, Nat.add_assoc]

theorem backend_lockFree (b : MemoryPoolBase) (hb : b.backend = .lockFree) :
    ∃ p, b = .lockFree p ∧ p.head_.tag = b.tag ∧ p.head_.ptr = b.headPtr := by
  cases b with
  | lockFree p => exact ⟨p, rfl, rfl, rfl⟩
  | mutex p => simp [MemoryPoolBase.backend] at hb

theorem fresh_run_tag (P : Platform) (S N : Nat) (h : NewBlock) (fuel : Nat)
    (b : MemoryPoolBase) (e : make_unique .lockFree P S h N = .ok b) (ops : List Op)
    (c : Client) (hr : (Client.fresh b).run P fuel ops = .ok c) :
    c.pool.backend = .lockFree ∧ c.pool.tag < 2 ^ P.w ∧
      c.pool.tag = (Client.fresh b).successes P fuel ops % 2 ^ P.w := by
  obtain ⟨_, _, _, i4, i5, _⟩ := make_unique_inv .lockFree P S N h b e
  have ht : (Client.fresh b).pool.tag < 2 ^ P.w := by
    simp only [Client.fresh, i4]; exact Nat.two_pow_pos P.w
  obtain ⟨r1, r2, r3⟩ := run_tag P fuel ops (Client.fresh b) c i5 ht hr
  refine ⟨r1, r2, ?_⟩
  rw [r3]
  simp only [Client.fresh, i4, Nat.zero_add]

/-- C16 (the tag counts successful operations).  In the lock-free pool a
successful `allocate()` and every `deallocate()` replace the tag `t` of the
head by `(t + 1) mod 2^w`, and an `allocate()` that returns `nullptr` leaves
the tag as it is; so after a run of calls on a fresh pool of which `k` succeed
the tag is `k mod 2^w`. -/
theorem tag_counts_successes (P : Platform) (S N : Nat) (h : NewBlock) (fuel : Nat)
    (b : MemoryPoolBase) (e : make_unique .lockFree P S h N = .ok b) (ops : List Op)
    (c : Client) (hr : (Client.fresh b).run P fuel ops = .ok c) :
    (∀ (p p1 : LockFreeMemoryPool) (a : Nat), p.allocate P fuel = .ok (a, p1) →
      (a ≠ 0 → p1.head_.tag = (p.head_.tag + 1) % 2 ^ P.w) ∧
      (a = 0 → p1.head_.tag = p.head_.tag)) ∧
    (∀ (p p1 : LockFreeMemoryPool) (ptr : Nat), p.deallocate P fuel ptr = .ok p1 →
      p1.head_.tag = (p.head_.tag + 1) % 2 ^ P.w) ∧
    ∃ p, c.pool = .lockFree p ∧
      p.head_.tag = (Client.fresh b).successes P fuel ops % 2 ^ P.w := by
  refine ⟨?_, ?_, ?_⟩
  · intro p p1 a ha
    rcases lockFree_allocate_cases P fuel p p1 a ha with ⟨h1, _, h3⟩ | ⟨h1, _, h3⟩
    · exact ⟨fun hne => absurd h1 hne, fun _ => by rw [h3]⟩
    · exact ⟨fun _ => by rw [h3], fun h0 => absurd h0 h1⟩
  · intro p p1 ptr hd
    rw [(lockFree_deallocate_ok P fuel p p1 ptr hd).2]
  · obtain ⟨r1, _, r3⟩ := fresh_run_tag P S N h fuel b e ops c hr
    obtain ⟨p, hp, ht, _⟩ := backend_lockFree c.pool r1
    exact ⟨p, hp, by rw [ht, r3]⟩

/-- Witness for `tag_counts_successes`: capacity 1; of the calls allocate,
allocate, deallocate(4096), allocate the second one returns `nullptr`, three
succeed, and the tag is 3. -/
theorem tag_counts_successes_witness :
    ∃ b c p, make_unique .lockFree x86_64 sizeofMyObject block4096 1 = .ok b ∧
      (Client.fresh b).run x86_64 0 [.allocate, .allocate, .deallocate 4096, .allocate]
        = .ok c ∧
      c.returned = [4096, 0, 4096] ∧
      (Client.fresh b).successes x86_64 0
        [.allocate, .allocate, .deallocate 4096, .allocate] = 3 ∧
      c.pool = .lockFree p ∧ p.head_.tag = 3 := by
  obtain ⟨p, hp, ht⟩ :=
    (tag_counts_successes x86_64 sizeofMyObject 1 block4096 0 _ rfl
      [.allocate, .allocate, .deallocate 4096, .allocate] _ rfl).2.2
  exact ⟨_, _, p, rfl, rfl, rfl, rfl, hp, ht⟩

theorem add_mod_ne_self (t k m : Nat) (ht : t < m) (h1 : 1 ≤ k) (h2 : k < m) :
    (t + k) % m ≠ t := by
  by_cases hlt : t + k < m
  · rw [Nat.mod_eq_of_lt hlt]; omega
  · have hge : m ≤ t + k := Nat.le_of_not_lt hlt
    rw [Nat.mod_eq_sub_mod hge, Nat.mod_eq_of_lt (by omega)]
    omega

/-- C17 (ABA guard).  In the lock-free pool, let a call load the head `(p, t)`
in a reachable state and be preempted, and let calls of other threads then
take effect, `k` of them successfully with `1 <= k < 2^w`.  Then the tag of the
head differs from `t`, whatever the address in the head now is, and when the
call goes on with the loaded value its compare-and-swap fails: an `allocate()`
that loaded a non-null head changes nothing and goes round again, a
`deallocate(a)` of a held slot `a` only writes `a->next` and goes round again;
after reloading, either call returns what it returns when made in the current
state.  In every state, the compare-and-swap of `allocate()` and of
`deallocate()` succeeds only if both the address and the tag of the head equal
the loaded ones. -/
theorem aba_guard (P : Platform) (S N : Nat) (h : NewBlock) (fuel : Nat)
    (b : MemoryPoolBase) (h1 : 1 ≤ N) (h2 : N < 2 ^ P.w)
    (e : make_unique .lockFree P S h N = .ok b)
    (ops0 : List Op) (c0 : Client) (hr0 : (Client.fresh b).run P fuel ops0 = .ok c0)
    (ops : List Op) (c1 : Client) (hr : c0.run P fuel ops = .ok c1)
    (hk1 : 1 ≤ c0.successes P fuel ops) (hk2 : c0.successes P fuel ops < 2 ^ P.w) :
    (∃ p0 p1, c0.pool = .lockFree p0 ∧ c1.pool = .lockFree p1 ∧
      p1.head_.tag ≠ p0.head_.tag ∧
      (p0.head_.ptr ≠ 0 →
        LockFreeMemoryPool.allocateAttempt P p0.head_ p1 = .ok none ∧
        ∀ n, LockFreeMemoryPool.allocateResume P (n + 1) p0.head_ p1 = p1.allocate P n) ∧
      (∀ a ∈ c1.live,
        LockFreeMemoryPool.deallocateAttempt P a p0.head_ p1 =
          .ok (false, { p1 with heap :=
            { p1.heap with next := Function.update p1.heap.next a p0.head_.ptr } }) ∧
        ∀ n, LockFreeMemoryPool.deallocateResume P (n + 1) a p0.head_ p1
          = p1.deallocate P n a)) ∧
    (∀ (p q : LockFreeMemoryPool) (old : TaggedPointer) (a : Nat), old.ptr ≠ 0 →
      LockFreeMemoryPool.allocateAttempt P old p = .ok (some (a, q)) →
      p.head_.ptr = old.ptr ∧ p.head_.tag = old.tag) ∧
    (∀ (p q : LockFreeMemoryPool) (old : TaggedPointer) (a : Nat),
      LockFreeMemoryPool.deallocateAttempt P a old p = .ok (true, q) →
      p.head_.ptr = old.ptr ∧ p.head_.tag = old.tag) := by
  refine ⟨?_, ?_, ?_⟩
  · obtain ⟨_, _, hS⟩ := fresh_holds .lockFree P S N h b h1 h2 e
    have hA := slots_nodup S hS N h.base
    have hA0 : ∀ x ∈ slots h.base S N, x ≠ 0 :=
      fun x hx => slots_ne_zero S N h.base x h.base_pos hx
    have inv0 := run_inv P fuel _ hA hA0 ops0 _ c0
      (fresh_inv .lockFree P S N h b h1 h2 e) hr0
    obtain ⟨L1, hh1, _⟩ := run_inv P fuel _ hA hA0 ops c0 c1 inv0 hr
    obtain ⟨L0, hh0, _⟩ := inv0
    obtain ⟨b0, t0, _⟩ := fresh_run_tag P S N h fuel b e ops0 c0 hr0
    obtain ⟨b1, _, t1⟩ := run_tag P fuel ops c0 c1 b0 t0 hr
    obtain ⟨p0, hp0, g0, q0⟩ := backend_lockFree c0.pool b0
    obtain ⟨p1, hp1, g1, _⟩ := backend_lockFree c1.pool b1
    have hne : p1.head_.tag ≠ p0.head_.tag := by
      rw [g0, g1, t1]
      exact add_mod_ne_self _ _ _ t0 hk1 hk2
    have hh : p1.head_ ≠ p0.head_ := fun hEq => hne (by rw [hEq])
    have hheap : c1.pool.heap = p1.heap := by rw [hp1]; rfl
    have hin : ∀ a ∈ slots h.base S N, p1.heap.inBounds P a := by
      intro a ha
      rw [← hheap]
      exact hh1.1.2 a ha
    refine ⟨p0, p1, hp0, hp1, hne, ?_, ?_⟩
    · intro hnz
      have hmem : p0.head_.ptr ∈ slots h.base S N := by
        rw [q0]
        have hc := hh0.1.1
        cases L0 with
        | nil => exact absurd (q0.trans hc) hnz
        | cons a L =>
          rw [hc.1]
          exact hh0.2.subset (by simp)
      have hatt : LockFreeMemoryPool.allocateAttempt P p0.head_ p1 = .ok none := by
        simp [LockFreeMemoryPool.allocateAttempt, hnz, Memory.load, hin _ hmem,
          compare_exchange_weak, hh]
      refine ⟨hatt, ?_⟩
      intro n
      simp only [LockFreeMemoryPool.allocateResume, hatt, LockFreeMemoryPool.allocate]
    · intro a ha
      have hmem : a ∈ slots h.base S N := hh1.2.subset (List.mem_append_right _ ha)
      have hia := hin a hmem
      have hatt : LockFreeMemoryPool.deallocateAttempt P a p0.head_ p1 =
          .ok (false, { p1 with heap :=
            { p1.heap with next := Function.update p1.heap.next a p0.head_.ptr } }) := by
        simp [LockFreeMemoryPool.deallocateAttempt, Memory.store, hia,
          compare_exchange_weak, hh]
      refine ⟨hatt, ?_⟩
      intro n
      have hia2 : Memory.inBounds P
          { p1.heap with next := Function.update p1.heap.next a p0.head_.ptr } a := hia
      simp only [LockFreeMemoryPool.deallocateResume, hatt, LockFreeMemoryPool.deallocate,
        deallocateLoop_succ, Memory.store, hia, hia2, if_true, Function.update_idem]
  · intro p q old a hnz ha
    simp only [LockFreeMemoryPool.allocateAttempt, hnz, if_false] at ha
    cases hl : p.heap.load P old.ptr with
    | error f => simp [hl] at ha
    | ok nxt =>
      simp only [hl, compare_exchange_weak] at ha
      by_cases hEq : p.head_ = old
      · rw [hEq]; exact ⟨rfl, rfl⟩
      · simp [hEq] at ha
  · intro p q old a ha
    simp only [LockFreeMemoryPool.deallocateAttempt] at ha
    cases hs : p.heap.store P a old.ptr with
    | error f => simp [hs] at ha
    | ok m =>
      simp only [hs, compare_exchange_weak] at ha
      by_cases hEq : p.head_ = old
      · rw [hEq]; exact ⟨rfl, rfl⟩
      · simp [hEq] at ha

/-- Witness for `aba_guard`: capacity 2.  A thread that holds 4096 loads the
head `(4160, 1)` and is preempted; allocate and deallocate(4160) of another
thread take effect.  The head again holds the address 4160, its tag is 3, and
both an `allocate()` and a `deallocate(4096)` that go on with the loaded value
fail their compare-and-swap. -/
theorem aba_guard_witness :
    ∃ b c0 c1 p0 p1, make_unique .lockFree x86_64 sizeofMyObject block4096 2 = .ok b ∧
      (Client.fresh b).run x86_64 0 [.allocate] = .ok c0 ∧
      c0.run x86_64 0 [.allocate, .deallocate 4160] = .ok c1 ∧
      c0.successes x86_64 0 [.allocate, .deallocate 4160] = 2 ∧
      c1.live = [4096] ∧
      c0.pool = .lockFree p0 ∧ c1.pool = .lockFree p1 ∧
      p0.head_ = ⟨4160, 1⟩ ∧ p1.head_ = ⟨4160, 3⟩ ∧
      LockFreeMemoryPool.allocateAttempt x86_64 p0.head_ p1 = .ok none ∧
      LockFreeMemoryPool.deallocateAttempt x86_64 4096 p0.head_ p1 =
        .ok (false, { p1 with heap :=
          { p1.heap with next := Function.update p1.heap.next 4096 p0.head_.ptr } }) := by
  obtain ⟨p0, p1, h0, h1, _, hal, hde⟩ :=
    (aba_guard x86_64 sizeofMyObject 2 block4096 0 _ (by decide) (by decide) rfl
      [.allocate] _ rfl [.allocate, .deallocate 4160] _ rfl (by decide) (by decide)).1
  have e0 : p0.head_ = ⟨4160, 1⟩ := by
    simp only [MemoryPoolBase.lockFree.injEq] at h0
    rw [← h0]; rfl
  have e1 : p1.head_ = ⟨4160, 3⟩ := by
    simp only [MemoryPoolBase.lockFree.injEq] at h1
    rw [← h1]; rfl
  refine ⟨_, _, _, p0, p1, rfl, rfl, rfl, rfl, rfl, h0, h1, e0, e1, ?_, ?_⟩
  · exact (hal (by rw [e0]; decide)).1
  · exact (hde 4096 (by decide)).1

/-! ## Frame properties -/

theorem slot_word_ne (base S ptrSize i j x : Nat) (hp : 0 < ptrSize) (hij : i ≠ j)
    (h1 : base + j * S ≤ x) (h2 : x + ptrSize ≤ base + j * S + S) : x ≠ base + i * S := by
  intro hx
  subst hx
  rcases Nat.lt_or_gt_of_ne hij with hlt | hgt
  · have : (i + 1) * S ≤ j * S := Nat.mul_le_mul_right S hlt
    rw [Nat.add_mul] at this
    omega
  · have : (j + 1) * S ≤ i * S := Nat.mul_le_mul_right S hgt
    rw [Nat.add_mul] at this
    omega

theorem memory_update_self (m : Memory) (a : Nat) :
    ({ m with next := Function.update m.next a (m.next a) } : Memory) = m := by
  cases m
  simp [Function.update_eq_self]

theorem base_allocate_deallocate (P : Platform) (fuel : Nat) (b b1 b2 : MemoryPoolBase)
    (a : Nat) (ha : b.allocate P fuel = .ok (a, b1)) (hz : a ≠ 0)
    (hd : b1.deallocate P fuel a = .ok b2) :
    b2.headPtr = b.headPtr ∧ b2.heap = b.heap ∧ (b.backend = .mutex → b2 = b) ∧
      (b.backend = .lockFree → b2.tag = (b.tag + 2) % 2 ^ P.w) := by
  cases b with
  | lockFree p =>
    simp only [MemoryPoolBase.allocate] at ha
    cases hp : p.allocate P fuel with
    | error f => simp [hp] at ha
    | ok x =>
      obtain ⟨a0, p1⟩ := x
      simp only [hp, Except.ok.injEq, Prod.mk.injEq] at ha
      obtain ⟨ea, eb⟩ := ha
      subst ea; subst eb
      simp only [MemoryPoolBase.deallocate] at hd
      cases hq : p1.deallocate P fuel a0 with
      | error f => simp [hq] at hd
      | ok p2 =>
        simp only [hq, Except.ok.injEq] at hd
        subst hd
        rcases lockFree_allocate_cases P fuel p p1 a0 hp with ⟨h1, _, _⟩ | ⟨_, h2, h3⟩
        · exact absurd h1 hz
        · obtain ⟨_, h5⟩ := lockFree_deallocate_ok P fuel p1 p2 a0 hq
          subst h5; subst h3
          refine ⟨h2, memory_update_self p.heap a0, ?_, ?_⟩
          · intro hb
            simp [MemoryPoolBase.backend] at hb
          · intro _
            simp only [MemoryPoolBase.tag]
            rw [Nat.mod_add_mod]
  | mutex p =>
    simp only [MemoryPoolBase.allocate] at ha
    cases hp : p.allocate P with
    | error f => simp [hp] at ha
    | ok x =>
      obtain ⟨a0, p1⟩ := x
      simp only [hp, Except.ok.injEq, Prod.mk.injEq] at ha
      obtain ⟨ea, eb⟩ := ha
      subst ea; subst eb
      simp only [MemoryPoolBase.deallocate] at hd
      cases hq : p1.deallocate P a0 with
      | error f => simp [hq] at hd
      | ok p2 =>
        simp only [hq, Except.ok.injEq] at hd
        subst hd
        rcases mutex_allocate_cases P p p1 a0 hp with ⟨h1, _, _⟩ | ⟨_, h2, h3⟩
        · exact absurd h1 hz
        · obtain ⟨_, h5⟩ := mutex_deallocate_ok P p1 p2 a0 hq
          subst h5; subst h3
          have hm := memory_update_self p.heap a0
          refine ⟨h2, hm, ?_, ?_⟩
          · intro _
            simp only at hm ⊢
            rw [hm, h2]
          · intro hb
            simp [MemoryPoolBase.backend] at hb

/-- C18 (client storage is left alone).  `allocate()` leaves every word of the
arena as it is (it changes only the head).  `deallocate(ptr)` changes no word
that lies outside the pointer-sized `next` link at the start of slot `ptr`.
So in every state reached by calls that respect the precondition of
`deallocate`, a call other than the `deallocate` of a held slot `s` that is
performed leaves every word inside slot `s` as it is. -/
theorem client_storage_untouched (k : Backend) (P : Platform) (S N : Nat) (h : NewBlock)
    (fuel : Nat) (b : MemoryPoolBase) (h1 : 1 ≤ N) (h2 : N < 2 ^ P.w)
    (e : make_unique k P S h N = .ok b) (ops : List Op) (c : Client)
    (hr : (Client.fresh b).run P fuel ops = .ok c) :
    (∀ (b0 b1 : MemoryPoolBase) (a : Nat), b0.allocate P fuel = .ok (a, b1) →
      b1.heap = b0.heap) ∧
    (∀ (b0 b1 : MemoryPoolBase) (ptr : Nat), b0.deallocate P fuel ptr = .ok b1 →
      b1.heap.base = b0.heap.base ∧ b1.heap.size = b0.heap.size ∧
      ∀ x, (x + P.ptrSize ≤ ptr ∨ ptr + P.ptrSize ≤ x) →
        b1.heap.next x = b0.heap.next x) ∧
    (∀ s ∈ c.live, ∀ (op : Op) (c1 : Client), op ≠ .deallocate s →
      c.step P fuel op = .ok c1 →
      ∀ x, s ≤ x → x + P.ptrSize ≤ s + S → c1.pool.heap.next x = c.pool.heap.next x) := by
  have hp := P.ptr_pos
  refine ⟨?_, ?_, ?_⟩
  · intro b0 b1 a ha
    exact (base_allocate_inv P fuel b0 b1 a ha).1
  · intro b0 b1 ptr hd
    obtain ⟨_, _, d3, d4, d5, _⟩ := base_deallocate_inv P fuel b0 b1 ptr hd
    refine ⟨d4, d5, ?_⟩
    intro x hx
    rw [d3]
    exact Function.update_noteq (by omega) _ _
  · obtain ⟨_, _, hS⟩ := fresh_holds k P S N h b h1 h2 e
    have hA := slots_nodup S hS N h.base
    have hA0 : ∀ x ∈ slots h.base S N, x ≠ 0 :=
      fun x hx => slots_ne_zero S N h.base x h.base_pos hx
    obtain ⟨L, hh, _⟩ := run_inv P fuel _ hA hA0 ops _ c (fresh_inv k P S N h b h1 h2 e) hr
    intro s hs op c1 hop hstep x hx1 hx2
    cases op with
    | allocate =>
      simp only [Client.step] at hstep
      cases ha : c.pool.allocate P fuel with
      | error f => simp [ha] at hstep
      | ok r =>
        obtain ⟨a, b1⟩ := r
        simp only [ha, Except.ok.injEq] at hstep
        subst hstep
        simp only
        rw [(base_allocate_inv P fuel c.pool b1 a ha).1]
    | deallocate ptr =>
      simp only [Client.step] at hstep
      by_cases hl : ptr ∈ c.live
      · simp only [hl, if_true] at hstep
        cases hd : c.pool.deallocate P fuel ptr with
        | error f => simp [hd] at hstep
        | ok b1 =>
          simp only [hd, Except.ok.injEq] at hstep
          subst hstep
          simp only
          obtain ⟨_, _, d3, _⟩ := base_deallocate_inv P fuel c.pool b1 ptr hd
          rw [d3]
          have hsA : s ∈ slots h.base S N := hh.2.subset (List.mem_append_right _ hs)
          have hpA : ptr ∈ slots h.base S N := hh.2.subset (List.mem_append_right _ hl)
          rw [mem_slots] at hsA hpA
          obtain ⟨j, _, ej⟩ := hsA
          obtain ⟨i, _, ei⟩ := hpA
          have hij : i ≠ j := by
            intro hEq
            apply hop
            rw [ei, ej, hEq]
          rw [ej] at hx1 hx2
          rw [ei]
          exact Function.update_noteq
            (slot_word_ne h.base S P.ptrSize i j x hp hij hx1 hx2) _ _
      · simp [hl] at hstep

/-- Witness for `client_storage_untouched`: capacity 2, both slots held; the
call deallocate(4160) leaves the word at 4096, the start of the held slot
4096, as it is. -/
theorem client_storage_untouched_witness :
    ∃ b c c1, make_unique .lockFree x86_64 sizeofMyObject block4096 2 = .ok b ∧
      (Client.fresh b).run x86_64 0 [.allocate, .allocate] = .ok c ∧
      c.live = [4160, 4096] ∧
      c.step x86_64 0 (.deallocate 4160) = .ok c1 ∧
      c1.pool.heap.next 4096 = c.pool.heap.next 4096 := by
  refine ⟨_, _, _, rfl, rfl, rfl, rfl, ?_⟩
  exact (client_storage_untouched .lockFree x86_64 sizeofMyObject 2 block4096 0 _
    (by decide) (by decide) rfl [.allocate, .allocate] _ rfl).2.2 4096 (by decide)
    (.deallocate 4160) _ (by decide) rfl 4096 (by decide) (by decide)

/-- C19 (allocate then deallocate is the identity on the free list).  In every
state reached by calls that respect the precondition of `deallocate` and whose
free list is not empty, `allocate()` returns the head address `p`, and after
`deallocate(p)` the head address and every word of the arena, so every `next`
link, are as before the two calls.  The mutex pool is back in the same state;
in the lock-free pool only the tag differs, advanced by 2 modulo `2^w`. -/
theorem allocate_deallocate_identity (k : Backend) (P : Platform) (S N : Nat)
    (h : NewBlock) (fuel : Nat) (b : MemoryPoolBase) (h1 : 1 ≤ N) (h2 : N < 2 ^ P.w)
    (e : make_unique k P S h N = .ok b) (ops : List Op) (c : Client)
    (hr : (Client.fresh b).run P fuel ops = .ok c) (hne : c.pool.headPtr ≠ 0) :
    ∃ b1 b2, c.pool.allocate P fuel = .ok (c.pool.headPtr, b1) ∧
      b1.deallocate P fuel c.pool.headPtr = .ok b2 ∧
      b2.headPtr = c.pool.headPtr ∧ b2.heap = c.pool.heap ∧
      (c.pool.backend = .mutex → b2 = c.pool) ∧
      (c.pool.backend = .lockFree → b2.tag = (c.pool.tag + 2) % 2 ^ P.w) := by
  obtain ⟨_, _, hS⟩ := fresh_holds k P S N h b h1 h2 e
  have hA := slots_nodup S hS N h.base
  have hA0 : ∀ x ∈ slots h.base S N, x ≠ 0 :=
    fun x hx => slots_ne_zero S N h.base x h.base_pos hx
  obtain ⟨L, hh, _⟩ := run_inv P fuel _ hA hA0 ops _ c (fresh_inv k P S N h b h1 h2 e) hr
  cases L with
  | nil => exact absurd hh.1.1 hne
  | cons a L =>
    have hhead : c.pool.headPtr = a := hh.1.1.1
    have haA : a ∈ slots h.base S N := hh.2.subset (by simp)
    have hnd : (a :: L ++ c.live).Nodup := hh.2.nodup_iff.mpr hA
    have haL : a ∉ L := by
      have := (List.nodup_append.mp hnd).1
      exact (List.nodup_cons.mp this).1
    obtain ⟨b1, e1, d1, hz⟩ := desc_allocate_cons P fuel _ c.pool a L hh.1 haA
    obtain ⟨b2, e2, _⟩ := desc_deallocate P fuel _ b1 a L d1 haA hz haL
    obtain ⟨g1, g2, g3, g4⟩ := base_allocate_deallocate P fuel c.pool b1 b2 a e1 hz e2
    rw [hhead]
    exact ⟨b1, b2, e1, e2, by rw [g1, hhead], g2, g3, g4⟩

/-- Witness for `allocate_deallocate_identity`: a lock-free pool of capacity 2
after one allocation; the head is `(4160, 1)`, and after allocate and
deallocate(4160) it is `(4160, 3)`. -/
theorem allocate_deallocate_identity_witness :
    ∃ b c b1 b2, make_unique .lockFree x86_64 sizeofMyObject block4096 2 = .ok b ∧
      (Client.fresh b).run x86_64 0 [.allocate] = .ok c ∧
      c.pool.headPtr = 4160 ∧ c.pool.tag = 1 ∧
      c.pool.allocate x86_64 0 = .ok (c.pool.headPtr, b1) ∧
      b1.deallocate x86_64 0 c.pool.headPtr = .ok b2 ∧
      b2.headPtr = c.pool.headPtr ∧ b2.heap = c.pool.heap ∧
      (c.pool.backend = .mutex → b2 = c.pool) ∧
      (c.pool.backend = .lockFree → b2.tag = (c.pool.tag + 2) % 2 ^ x86_64.w) := by
  obtain ⟨b1, b2, hc⟩ :=
    allocate_deallocate_identity .lockFree x86_64 sizeofMyObject 2 block4096 0 _
      (by decide) (by decide) rfl [.allocate] _ rfl (by decide)
  exact ⟨_, _, b1, b2, rfl, rfl, rfl, rfl, hc⟩

end MPool
